import Mathlib

/-!
Erasure-coded streaming encoder: `pkg/eestream/encode.go`.

A shallow embedding of the redundancy-strategy validator, the stripe producer
(`EncodeReader` / `fillBuffer`) and the ranged encoder (`EncodedRanger`).

Conventions of the embedding.

* Go `int` / `int64` values are `Int`. The quantities involved are sizes and
  offsets of in-memory data, so no wrap-around is represented; `/` and `%` of Go
  are the truncating `Int.tdiv` and `Int.tmod`.
* A Go call returning `(value, error)` is an `Outcome`: a value, a non-nil error,
  or a run-time panic (zero divisor, negative `make` size, missing lane).
* The producer goroutine is embedded sequentially: it runs to its end before any reader
  takes a byte. A lane of the pipe records every byte enqueued on it, in order, and every
  close call it received; under the FIFO contract of the pipe this history is what the lane
  reader delivers. A lane is bounded: a write that would make it hold more than its capacity
  is suspended, and with no reader draining the lane it never returns.
* The loop of `fillBuffer` takes a fuel argument; `none` means that the run did not complete
  (fuel exhausted, a write suspended for ever on a full lane, or a callback that addressed a
  lane that the pipe does not have, which is an index panic in Go).
-/

namespace eestream

/-- Error values exchanged by the encoder. -/
inductive Error where
  /-- The sentinel `io.EOF`. -/
  | EOF
  /-- The sentinel `io.ErrUnexpectedEOF`: the source ended inside a stripe. -/
  | ErrUnexpectedEOF
  /-- The sentinel `context.Canceled`. -/
  | Canceled
  /-- The sentinel `context.DeadlineExceeded`. -/
  | DeadlineExceeded
  /-- The error of a write to a lane that has been closed. -/
  | ErrClosedPipe
  /-- An error made from a message by `Error.New`. -/
  | New (msg : String)
  /-- An error wrapped by `Error.Wrap`. -/
  | Wrap (e : Error)
  /-- Any other error value, reported by a scheme or a source. -/
  | other (code : Nat)
  deriving DecidableEq, Repr

/-- Result of a Go call with signature `(T, error)`. -/
inductive Outcome (α : Type) where
  /-- The call returned a value and a nil error. -/
  | ok (a : α)
  /-- The call returned a non-nil error. -/
  | error (e : Error)
  /-- The call did not return: a run-time panic, or a producer that never completes. -/
  | panicked
  deriving DecidableEq, Repr

/-- The interface `ErasureScheme` (the `Decode` method is not used by the encoder
and is left out). `Encode in out` is represented by the calls `out num data` it
makes, in order, together with the error it returns. -/
structure ErasureScheme where
  Encode : List UInt8 → List (Int × List UInt8) × Option Error
  ErasureShareSize : Int
  StripeSize : Int
  TotalCount : Int
  RequiredCount : Int

/-- The struct `RedundancyStrategy`: an embedded `ErasureScheme` and two thresholds. -/
structure RedundancyStrategy extends ErasureScheme where
  repairThreshold : Int
  optimalThreshold : Int

/-- The constructor `NewRedundancyStrategy`. -/
def NewRedundancyStrategy (es : ErasureScheme) (repairThreshold optimalThreshold : Int) :
    Outcome RedundancyStrategy :=
  let repairThreshold := if repairThreshold = 0 then es.TotalCount else repairThreshold
  let optimalThreshold := if optimalThreshold = 0 then es.TotalCount else optimalThreshold
  if repairThreshold < 0 then
    .error (.New "negative repair threshold")
  else if repairThreshold > 0 ∧ repairThreshold < es.RequiredCount then
    .error (.New "repair threshold less than required count")
  else if repairThreshold > es.TotalCount then
    .error (.New "repair threshold greater than total count")
  else if optimalThreshold < 0 then
    .error (.New "negative optimal threshold")
  else if optimalThreshold > 0 ∧ optimalThreshold < es.RequiredCount then
    .error (.New "optimal threshold less than required count")
  else if optimalThreshold > es.TotalCount then
    .error (.New "optimal threshold greater than total count")
  else if repairThreshold > optimalThreshold then
    .error (.New "repair threshold greater than optimal threshold")
  else
    .ok { toErasureScheme := es, repairThreshold := repairThreshold,
          optimalThreshold := optimalThreshold }

/-- The accessor `RepairThreshold`. -/
def RedundancyStrategy.RepairThreshold (rs : RedundancyStrategy) : Int :=
  rs.repairThreshold

/-- The accessor `OptimalThreshold`. -/
def RedundancyStrategy.OptimalThreshold (rs : RedundancyStrategy) : Int :=
  rs.optimalThreshold

/-- The helper `checkMaxSize`; `none` is the nil error. -/
def checkMaxSize (size : Int) : Option Error :=
  if size < 0 then some (.New "negative max size") else none

/-- A sequential byte source (`io.Reader`): the bytes it still has to deliver and
the error its `Read` reports once they are used up (`io.EOF` for a source that
simply ends). -/
structure Reader where
  data : List UInt8
  term : Error
  deriving DecidableEq, Repr

/-- The library function `io.ReadFull r buf`: fills `buf` from the source. It
returns the source and the buffer after the call and the error. With fewer bytes
than `len(buf)` left, the bytes read overwrite the front of the buffer and the
error is the one of the source, `io.EOF` becoming `io.ErrUnexpectedEOF` when at
least one byte was read. -/
def ReadFull (r : Reader) (buf : List UInt8) : Reader × List UInt8 × Option Error :=
  if buf.length ≤ r.data.length then
    ({ r with data := r.data.drop buf.length }, r.data.take buf.length, none)
  else
    ({ r with data := [] }, r.data ++ buf.drop r.data.length,
      some (if r.data ≠ [] ∧ r.term = Error.EOF then Error.ErrUnexpectedEOF else r.term))

/-- Modelled from the spec: one lane of `sync2.MultiPipe`, whose source is not
part of the files at hand. A lane holds the bytes enqueued on it, in write order,
and the close calls it received, oldest first; its terminal-error cell is the
first of them (the first close wins), and the lane is open while there is none.
A close cause `none` is a close with no error. No byte leaves the lane while the
producer runs, so the bytes enqueued are the bytes buffered. -/
structure Lane where
  buf : List UInt8
  closes : List (Option Error)
  deriving DecidableEq, Repr

/-- Modelled from the spec: the write of `sync2.MultiPipe` on one lane of capacity
`capacity`. On a closed lane it fails and enqueues nothing. On an open lane it appends
the bytes when the lane then holds at most `capacity` bytes; otherwise the write is
suspended until a reader makes room, which does not happen while the producer runs:
`none`, the write never returns. -/
def Lane.Write (l : Lane) (capacity : Int) (data : List UInt8) : Option (Lane × Option Error) :=
  if l.closes ≠ [] then some (l, some Error.ErrClosedPipe)
  else if ((l.buf.length + data.length : Nat) : Int) ≤ capacity then
    some ({ l with buf := l.buf ++ data }, none)
  else none

/-- Modelled from the spec: the close of `sync2.MultiPipe` on one lane. The bytes
already enqueued stay readable and the call is recorded after the earlier ones. -/
def Lane.CloseWithError (l : Lane) (err : Option Error) : Lane :=
  { l with closes := l.closes ++ [err] }

/-- Modelled from the spec: the type `sync2.MultiPipe`, a fixed array of lanes
created with a per-lane capacity. -/
structure MultiPipe where
  lanes : List Lane
  capacity : Int
  deriving DecidableEq, Repr

/-- Modelled from the spec: `sync2.NewMultiPipeMemory pipeCount pipeSize` creates
`pipeCount` open, empty lanes of capacity `pipeSize`. -/
def NewMultiPipeMemory (pipeCount pipeSize : Int) : MultiPipe :=
  { lanes := List.replicate pipeCount.toNat { buf := [], closes := [] }, capacity := pipeSize }

/-- The read end of a lane. -/
structure PipeReader where
  lane : Nat
  deriving DecidableEq, Repr

/-- The write end of a lane. -/
structure PipeWriter where
  lane : Nat
  deriving DecidableEq, Repr

/-- Modelled from the spec: `MultiPipe.Pipe index` hands out the two ends of lane
`index`; the pipe has handles for the lanes `0 ≤ index < N` only. -/
def MultiPipe.Pipe (mp : MultiPipe) (index : Int) : Option (PipeReader × PipeWriter) :=
  if 0 ≤ index ∧ index < mp.lanes.length then
    some ({ lane := index.toNat }, { lane := index.toNat })
  else none

/-- Write through a write end: the lane is replaced by the lane after `Lane.Write` with the
capacity of the pipe; a suspended write does not return. -/
def PipeWriter.Write (w : PipeWriter) (mp : MultiPipe) (data : List UInt8) :
    Option (MultiPipe × Option Error) :=
  match mp.lanes[w.lane]? with
  | none => none
  | some l =>
    match l.Write mp.capacity data with
    | none => none
    | some (l1, e) => some ({ mp with lanes := mp.lanes.set w.lane l1 }, e)

/-- Close through a write end: the lane is replaced by the lane after
`Lane.CloseWithError`. -/
def PipeWriter.CloseWithError (w : PipeWriter) (mp : MultiPipe) (err : Option Error) :
    Option MultiPipe :=
  match mp.lanes[w.lane]? with
  | none => none
  | some l => some { mp with lanes := mp.lanes.set w.lane (l.CloseWithError err) }

/-- Modelled from the spec: `utils.CombineErrors err writeErr` is the first
non-nil of the two, the error of `Encode` preceding the write error. -/
def CombineErrors (err writeErr : Option Error) : Option Error :=
  match err with
  | some e => some e
  | none => writeErr

/-- The cancellation state seen by the producer: `ctx k` is the value of
`ctx.Err()` at its evaluation number `k`, counted from zero. -/
abbrev Context := Nat → Option Error

/-- The struct `encodedReader`. -/
structure encodedReader where
  r : Reader
  rs : RedundancyStrategy
  inbuf : List UInt8
  pieceBuf : MultiPipe

/-- The callback that `fillBuffer` passes to `Encode`, run over the calls of one
`Encode`: each call takes the write end of lane `num` and assigns the result of
the write to `writeErr`. -/
def emit (mp : MultiPipe) (writeErr : Option Error) :
    List (Int × List UInt8) → Option (MultiPipe × Option Error)
  | [] => some (mp, writeErr)
  | (num, data) :: rest =>
    match mp.Pipe num with
    | none => none
    | some (_, writer) =>
      match writer.Write mp data with
      | none => none
      | some (mp1, e) => emit mp1 e rest

/-- A completed run of the loop of `fillBuffer`, with its observable history. -/
structure Run where
  /-- The encoder state at the end. -/
  er : encodedReader
  /-- The number of calls of `io.ReadFull`. -/
  reads : Nat
  /-- The buffers passed to `Encode`, in call order. -/
  encoded : List (List UInt8)
  /-- The value of `err` with which the loop was left. -/
  exit : Error

/-- The `for` loop of `fillBuffer`. `reads` counts the iterations made so far. -/
def fillLoop (ctx : Context) : Nat → encodedReader → Nat → List (List UInt8) → Option Run
  | 0, _, _, _ => none
  | fuel + 1, er, reads, encoded =>
    if ctx reads = some Error.Canceled then
      some { er := er, reads := reads, encoded := encoded, exit := Error.Canceled }
    else
      match ReadFull er.r er.inbuf with
      | (r, inbuf, some e) =>
        some { er := { er with r := r, inbuf := inbuf }, reads := reads + 1,
               encoded := encoded, exit := e }
      | (r, inbuf, none) =>
        match emit er.pieceBuf none (er.rs.Encode inbuf).1 with
        | none => none
        | some (pieceBuf, writeErr) =>
          match CombineErrors (er.rs.Encode inbuf).2 writeErr with
          | some e =>
            some { er := { er with r := r, inbuf := inbuf, pieceBuf := pieceBuf },
                   reads := reads + 1, encoded := encoded ++ [inbuf], exit := e }
          | none =>
            fillLoop ctx fuel { er with r := r, inbuf := inbuf, pieceBuf := pieceBuf }
              (reads + 1) (encoded ++ [inbuf])

/-- The closing loop of `fillBuffer`: `CloseWithError err` on the write end of
each listed lane. The errors returned by the closes are only logged. -/
def closeAll (err : Option Error) (mp : MultiPipe) : List Nat → Option MultiPipe
  | [] => some mp
  | i :: rest =>
    match mp.Pipe i with
    | none => none
    | some (_, writer) =>
      match writer.CloseWithError mp err with
      | none => none
      | some mp1 => closeAll err mp1 rest

/-- The cause with which `fillBuffer` closes the lanes: `io.EOF` becomes nil. -/
def closeCause (exit : Error) : Option Error :=
  if exit = Error.EOF then none else some exit

/-- The method `fillBuffer`: the loop, then the close of lanes `0 .. TotalCount-1`. -/
def encodedReader.fillBuffer (er : encodedReader) (fuel : Nat) (ctx : Context) : Option Run :=
  match fillLoop ctx fuel er 0 [] with
  | none => none
  | some run =>
    match closeAll (closeCause run.exit) run.er.pieceBuf
        (List.range run.er.rs.TotalCount.toNat) with
    | none => none
    | some pieceBuf => some { run with er := { run.er with pieceBuf := pieceBuf } }

/-- The loop of `EncodeReader` that collects the read end of each listed lane. -/
def pipeReaders (mp : MultiPipe) : List Nat → Option (List PipeReader)
  | [] => some []
  | i :: rest =>
    match mp.Pipe i with
    | none => none
    | some (reader, _) =>
      match pipeReaders mp rest with
      | none => none
      | some readers => some (reader :: readers)

/-- The function `EncodeReader`. It returns the readers and the `encodedReader`
on which the producer `fillBuffer` has been started. -/
def EncodeReader (r : Reader) (rs : RedundancyStrategy) (maxSize : Int) :
    Outcome (List PipeReader × encodedReader) :=
  match checkMaxSize maxSize with
  | some err => .error err
  | none =>
    if rs.RequiredCount = 0 then .panicked
    else if rs.StripeSize < 0 then .panicked
    else if rs.TotalCount < 0 then .panicked
    else
      let pieceSize := maxSize.tdiv rs.RequiredCount
      let er : encodedReader :=
        { r := r, rs := rs, inbuf := List.replicate rs.StripeSize.toNat 0,
          pieceBuf := NewMultiPipeMemory rs.TotalCount pieceSize }
      match pipeReaders er.pieceBuf (List.range rs.TotalCount.toNat) with
      | none => .panicked
      | some readers => .ok (readers, er)

/-- Modelled from the spec: the interface `ranger.Ranger`, as a ranged source
over a byte sequence. -/
structure Ranger where
  data : List UInt8
  deriving DecidableEq, Repr

/-- Modelled from the spec: `Ranger.Size`. -/
def Ranger.Size (rr : Ranger) : Int :=
  rr.data.length

/-- Modelled from the spec: `Ranger.Range offset length` is a source over the
bytes `[offset, offset + length)`, and an error when the range is out of bounds. -/
def Ranger.Range (rr : Ranger) (offset length : Int) : Outcome Reader :=
  if offset < 0 ∨ length < 0 ∨ offset + length > rr.Size then
    .error (.New "range out of bounds")
  else
    .ok { data := (rr.data.drop offset.toNat).take length.toNat, term := Error.EOF }

/-- The struct `EncodedRanger`. -/
structure EncodedRanger where
  rr : Ranger
  rs : RedundancyStrategy
  maxSize : Int

/-- The constructor `NewEncodedRanger`. A zero stripe size is a zero divisor. -/
def NewEncodedRanger (rr : Ranger) (rs : RedundancyStrategy) (maxSize : Int) :
    Outcome EncodedRanger :=
  if rs.StripeSize = 0 then .panicked
  else if rr.Size.tmod rs.StripeSize ≠ 0 then
    .error (.New ("invalid erasure encoder and range reader combo. " ++
      "range reader size must be a multiple of erasure encoder block size"))
  else
    match checkMaxSize maxSize with
    | some err => .error err
    | none => .ok { rs := rs, rr := rr, maxSize := maxSize }

/-- The method `OutputSize`. The stripe size of a ranger built by `NewEncodedRanger` is not
zero, so the division is defined. -/
def EncodedRanger.OutputSize (er : EncodedRanger) : Int :=
  let blocks := er.rr.Size.tdiv er.rs.StripeSize
  blocks * er.rs.ErasureShareSize

/-- Modelled from the spec: `encryption.CalcEncompassingBlocks offset length
blockSize`, the first block and the number of blocks of width `blockSize` that
cover `[offset, offset + length)`; `none` for a zero block size. -/
def CalcEncompassingBlocks (offset length blockSize : Int) : Option (Int × Int) :=
  if blockSize = 0 then none
  else
    let firstBlock := offset.tdiv blockSize
    let lastBlock := (offset + length - 1).tdiv blockSize
    some (firstBlock, if length > 0 then lastBlock - firstBlock + 1 else 0)

/-- What a reader delivers when it is drained: bytes, then end-of-stream (`none`)
or an error. -/
structure Stream where
  bytes : List UInt8
  term : Option Error
  deriving DecidableEq, Repr

/-- The stream of a lane reader over the pipe as the producer left it: the bytes
enqueued on the lane, then the cause of its first close. A lane that was never
closed has no complete stream. -/
def PipeReader.stream (rd : PipeReader) (mp : MultiPipe) : Option Stream :=
  match mp.lanes[rd.lane]? with
  | none => none
  | some l =>
    match l.closes with
    | [] => none
    | cause :: _ => some { bytes := l.buf, term := cause }

/-- The library call `io.CopyN ioutil.Discard src n`: the source after the call
and the error. Fewer than `n` bytes in the source give its error, or `io.EOF`. -/
def CopyN (src : Stream) (n : Int) : Stream × Option Error :=
  if n ≤ 0 then (src, none)
  else if n.toNat ≤ src.bytes.length then
    ({ src with bytes := src.bytes.drop n.toNat }, none)
  else ({ src with bytes := [] }, some (src.term.getD Error.EOF))

/-- The library call `io.LimitReader r n`: at most `n` bytes of `r`, then
end-of-stream; a shorter `r` ends as `r` does. -/
def LimitReader (r : Stream) (n : Int) : Stream :=
  if (r.bytes.length : Int) < n then r
  else { bytes := r.bytes.take n.toNat, term := none }

/-- The trimming loop of `Range` over the readers returned by `EncodeReader`. -/
def trimReaders (mp : MultiPipe) (skip length : Int) : List PipeReader → Outcome (List Stream)
  | [] => .ok []
  | rd :: rest =>
    match rd.stream mp with
    | none => .panicked
    | some s =>
      match CopyN s skip with
      | (_, some err) => .error (.Wrap err)
      | (s1, none) =>
        match trimReaders mp skip length rest with
        | .ok out => .ok (LimitReader s1 length :: out)
        | .error e => .error e
        | .panicked => .panicked

/-- The method `Range`. The producer started by `EncodeReader` is run to its end
(with the given fuel) before the lanes are trimmed. -/
def EncodedRanger.Range (er : EncodedRanger) (fuel : Nat) (ctx : Context) (offset length : Int) :
    Outcome (List Stream) :=
  match CalcEncompassingBlocks offset length er.rs.ErasureShareSize with
  | none => .panicked
  | some (firstBlock, blockCount) =>
    match er.rr.Range (firstBlock * er.rs.StripeSize) (blockCount * er.rs.StripeSize) with
    | .error err => .error err
    | .panicked => .panicked
    | .ok r =>
      match EncodeReader r er.rs er.maxSize with
      | .error err => .error err
      | .panicked => .panicked
      | .ok (readers, enc) =>
        match enc.fillBuffer fuel ctx with
        | none => .panicked
        | some run =>
          trimReaders run.er.pieceBuf (offset - firstBlock * er.rs.ErasureShareSize) length readers

/-- The bytes that the calls of one `Encode` address to lane `i`, in call order. -/
def shareOf (emits : List (Int × List UInt8)) (i : Int) : List UInt8 :=
  (emits.filter fun p => decide (p.1 = i)).flatMap fun p => p.2

/-- The first `k` consecutive stripes of `n` bytes of `data`. -/
def stripesOf (n : Nat) (data : List UInt8) : Nat → List (List UInt8)
  | 0 => []
  | k + 1 => data.take n :: stripesOf n (data.drop n) k

/-- The encoding of `data` on lane `i`: the shares of lane `i` of its first `k`
stripes, concatenated in stripe order. -/
def laneOf (es : ErasureScheme) (data : List UInt8) (k : Nat) (i : Int) : List UInt8 :=
  (stripesOf es.StripeSize.toNat data k).flatMap fun s => shareOf (es.Encode s).1 i

/-- A scheme for the examples: stripes of 4 bytes, shares of 2 bytes, 2 of 4.
Lanes 0 and 1 carry the two halves of the stripe, lanes 2 and 3 carry their
exclusive-or, plain and crossed. -/
def toyScheme : ErasureScheme where
  Encode := fun s =>
    ([(0, s.take 2), (1, (s.drop 2).take 2),
      (2, List.zipWith (fun a b => a ^^^ b) (s.take 2) ((s.drop 2).take 2)),
      (3, List.zipWith (fun a b => a ^^^ b) (s.take 2) ((s.drop 2).take 2).reverse)], none)
  ErasureShareSize := 2
  StripeSize := 4
  TotalCount := 4
  RequiredCount := 2

/-- The strategy over `toyScheme` with both thresholds at the total count. -/
def toyStrategy : RedundancyStrategy :=
  { toErasureScheme := toyScheme, repairThreshold := 4, optimalThreshold := 4 }

/-- A context that is never cancelled. -/
def background : Context := fun _ => none

/-- The bytes of "ABCDEFGH". -/
def abcdefgh : List UInt8 := [65, 66, 67, 68, 69, 70, 71, 72]

/-- Every lane of the pipe is open. -/
def MultiPipe.AllOpen (mp : MultiPipe) : Prop :=
  ∀ l ∈ mp.lanes, l.closes = []

/-- The lane after a write that returned: an open lane has the bytes appended, a closed lane
is unchanged. -/
def Lane.put (l : Lane) (data : List UInt8) : Lane :=
  if l.closes = [] then { l with buf := l.buf ++ data } else l

/-- The pipe after lane `i` has been written `f i`, for every lane. -/
def MultiPipe.deliver (mp : MultiPipe) (f : Nat → List UInt8) : MultiPipe :=
  { mp with lanes := mp.lanes.mapIdx fun i l => l.put (f i) }

/-- Every open lane `i` of the pipe has room for the bytes `f i`. -/
def MultiPipe.Fits (mp : MultiPipe) (f : Nat → List UInt8) : Prop :=
  ∀ (i : Nat) (l : Lane), mp.lanes[i]? = some l → l.closes = [] →
    ((l.buf.length + (f i).length : Nat) : Int) ≤ mp.capacity

/-- The pipe after the lanes below `m` have been closed with cause `err`. -/
def MultiPipe.closeBelow (mp : MultiPipe) (m : Nat) (err : Option Error) : MultiPipe :=
  { mp with lanes := mp.lanes.mapIdx fun i l => if i < m then l.CloseWithError err else l }

/-- The readers that `EncodeReader` returns for `toyStrategy`. -/
def toyReaders : List PipeReader :=
  [{ lane := 0 }, { lane := 1 }, { lane := 2 }, { lane := 3 }]

/-- The producer that `EncodeReader` starts for `toyStrategy`, a source holding `input`
and `maxSize = 8`. -/
def toyProducer (input : List UInt8) : encodedReader :=
  { r := { data := input, term := Error.EOF }, rs := toyStrategy, inbuf := [0, 0, 0, 0],
    pieceBuf := { lanes := List.replicate 4 { buf := [], closes := [] }, capacity := 4 } }

/-- The producer that `EncodeReader` starts for `toyStrategy`, a source holding `input`
and a `maxSize` that gives the lanes the capacity `capacity`. -/
def toyProducerAt (capacity : Int) (input : List UInt8) : encodedReader :=
  { r := { data := input, term := Error.EOF }, rs := toyStrategy, inbuf := [0, 0, 0, 0],
    pieceBuf := { lanes := List.replicate 4 { buf := [], closes := [] }, capacity := capacity } }

/-- The strategy of `toyStrategy` with an `Encode` that produces no share and returns the
error `e`. -/
def failingStrategy (e : Error) : RedundancyStrategy :=
  { toyStrategy with Encode := fun _ => ([], some e) }

/-- The producer that `EncodeReader` starts for `failingStrategy e`, a source holding `input`
and `maxSize = 8`. -/
def failingProducer (e : Error) (input : List UInt8) : encodedReader :=
  { r := { data := input, term := Error.EOF }, rs := failingStrategy e, inbuf := [0, 0, 0, 0],
    pieceBuf := { lanes := List.replicate 4 { buf := [], closes := [] }, capacity := 4 } }

/-- A context that is cancelled from its second check on. -/
def cancelAtSecond : Context := fun k => if k = 0 then none else some Error.Canceled

/-- A ranged encoder over the 8 bytes of `abcdefgh` (two stripes of `toyStrategy`). -/
def toyRanger : EncodedRanger :=
  { rr := { data := abcdefgh }, rs := toyStrategy, maxSize := 8 }

/-- The bytes of "ABCDE". -/
def abcde : List UInt8 := [65, 66, 67, 68, 69]

/-- The part of the method `Range` that follows the request to the source: the result `src`
of the request is encoded by `EncodeReader`, the producer is run to its end, and `skip` bytes
are discarded from every lane before it is limited to `length` bytes. -/
def EncodedRanger.encodeRange (er : EncodedRanger) (fuel : Nat) (ctx : Context)
    (src : Outcome Reader) (skip length : Int) : Outcome (List Stream) :=
  match src with
  | .error err => .error err
  | .panicked => .panicked
  | .ok r =>
    match EncodeReader r er.rs er.maxSize with
    | .error err => .error err
    | .panicked => .panicked
    | .ok (readers, enc) =>
      match enc.fillBuffer fuel ctx with
      | none => .panicked
      | some run => trimReaders run.er.pieceBuf skip length readers

/-- The producer of `toyProducer` at a moment when lane `j` has been closed, with no error,
and the other lanes are open. -/
def toyProducerClosed (j : Nat) (input : List UInt8) : encodedReader :=
  { r := { data := input, term := Error.EOF }, rs := toyStrategy, inbuf := [0, 0, 0, 0],
    pieceBuf :=
      { lanes := (List.range 4).map fun i =>
          if i = j then { buf := [], closes := [none] } else { buf := [], closes := [] },
        capacity := 4 } }

/-- The observable part of a run: reads made, buffers encoded, exit error, pipe and source. -/
def Run.observed (run : Run) : Nat × List (List UInt8) × Error × MultiPipe × Reader :=
  (run.reads, run.encoded, run.exit, run.er.pieceBuf, run.er.r)

/-! ## Auxiliary lemmas -/

theorem NewRedundancyStrategy_cases (es : ErasureScheme) (r o a b : Int)
    (ha : a = if r = 0 then es.TotalCount else r) (hb : b = if o = 0 then es.TotalCount else o) :
    ((0 ≤ a ∧ ¬ (0 < a ∧ a < es.RequiredCount) ∧ a ≤ es.TotalCount ∧
        0 ≤ b ∧ ¬ (0 < b ∧ b < es.RequiredCount) ∧ b ≤ es.TotalCount ∧ a ≤ b) ∧
      NewRedundancyStrategy es r o = Outcome.ok
        { toErasureScheme := es, repairThreshold := a, optimalThreshold := b }) ∨
    (¬ (0 ≤ a ∧ ¬ (0 < a ∧ a < es.RequiredCount) ∧ a ≤ es.TotalCount ∧
        0 ≤ b ∧ ¬ (0 < b ∧ b < es.RequiredCount) ∧ b ≤ es.TotalCount ∧ a ≤ b) ∧
      ∃ e, NewRedundancyStrategy es r o = Outcome.error e) := by
  unfold NewRedundancyStrategy
  simp only [← ha, ← hb]
  split_ifs with h1 h2 h3 h4 h5 h6 h7
  all_goals first
    | (left; refine ⟨?_, rfl⟩; omega)
    | (right; refine ⟨?_, _, rfl⟩; omega)

theorem Lane.put_nil (l : Lane) : l.put [] = l := by
  unfold Lane.put
  split_ifs <;> simp

theorem Lane.put_put (l : Lane) (a b : List UInt8) :
    (l.put a).put b = l.put (a ++ b) := by
  unfold Lane.put
  by_cases h : l.closes = [] <;> simp [h]

theorem Lane.put_closes (l : Lane) (a : List UInt8) : (l.put a).closes = l.closes := by
  unfold Lane.put
  split_ifs <;> rfl

theorem Lane.put_open (l : Lane) (a : List UInt8) (h : l.closes = []) :
    l.put a = { buf := l.buf ++ a, closes := [] } := by
  cases l with
  | mk buf closes =>
    simp only at h
    subst h
    simp [Lane.put]

theorem Lane.Write_open (l : Lane) (capacity : Int) (a : List UInt8) (h : l.closes = [])
    (hfit : ((l.buf.length + a.length : Nat) : Int) ≤ capacity) :
    l.Write capacity a = some (l.put a, none) := by
  unfold Lane.Write Lane.put
  rw [if_neg (not_not.2 h), if_pos hfit, if_pos h]

theorem Lane.Write_closed (l : Lane) (capacity : Int) (a : List UInt8) (h : l.closes ≠ []) :
    l.Write capacity a = some (l.put a, some Error.ErrClosedPipe) := by
  simp [Lane.Write, Lane.put, h]

theorem Lane.Write_some (l l1 : Lane) (capacity : Int) (a : List UInt8) (e : Option Error)
    (h : l.Write capacity a = some (l1, e)) :
    l1 = l.put a ∧ (l.closes = [] → e = none) ∧ (l.closes ≠ [] → e = some Error.ErrClosedPipe) ∧
    (l.closes = [] → ((l.buf.length + a.length : Nat) : Int) ≤ capacity) := by
  by_cases hc : l.closes = []
  · by_cases hfit : ((l.buf.length + a.length : Nat) : Int) ≤ capacity
    · rw [Lane.Write_open l capacity a hc hfit] at h
      simp only [Option.some.injEq, Prod.mk.injEq] at h
      exact ⟨h.1.symm, fun _ => h.2.symm, fun h1 => absurd hc h1, fun _ => hfit⟩
    · unfold Lane.Write at h
      rw [if_neg (not_not.2 hc), if_neg hfit] at h
      cases h
  · rw [Lane.Write_closed l capacity a hc] at h
    simp only [Option.some.injEq, Prod.mk.injEq] at h
    exact ⟨h.1.symm, fun h1 => absurd h1 hc, fun _ => h.2.symm, fun h1 => absurd h1 hc⟩

theorem shareOf_nil (i : Int) : shareOf [] i = [] := rfl

theorem shareOf_cons (p : Int × List UInt8) (rest : List (Int × List UInt8)) (i : Int) :
    shareOf (p :: rest) i = (if p.1 = i then p.2 else []) ++ shareOf rest i := by
  unfold shareOf
  by_cases h : p.1 = i <;> simp [List.filter_cons, h]

theorem MultiPipe.deliver_length (mp : MultiPipe) (f : Nat → List UInt8) :
    (mp.deliver f).lanes.length = mp.lanes.length := by
  simp [MultiPipe.deliver]

theorem MultiPipe.deliver_capacity (mp : MultiPipe) (f : Nat → List UInt8) :
    (mp.deliver f).capacity = mp.capacity := rfl

theorem MultiPipe.deliver_getElem? (mp : MultiPipe) (f : Nat → List UInt8) (i : Nat) :
    (mp.deliver f).lanes[i]? = (mp.lanes[i]?).map fun l => l.put (f i) := by
  simp [MultiPipe.deliver]

theorem MultiPipe.ext_lanes (mp mq : MultiPipe) (hc : mp.capacity = mq.capacity)
    (h : ∀ i : Nat, mp.lanes[i]? = mq.lanes[i]?) : mp = mq := by
  cases mp
  cases mq
  simp only at hc h
  simp only [MultiPipe.mk.injEq]
  exact ⟨List.ext_getElem? h, hc⟩

theorem MultiPipe.deliver_nil (mp : MultiPipe) : mp.deliver (fun _ => []) = mp := by
  apply MultiPipe.ext_lanes
  · rfl
  · intro i
    rw [MultiPipe.deliver_getElem?]
    cases mp.lanes[i]? <;> simp [Lane.put_nil]

theorem MultiPipe.deliver_deliver (mp : MultiPipe) (f g : Nat → List UInt8) :
    (mp.deliver f).deliver g = mp.deliver fun i => f i ++ g i := by
  apply MultiPipe.ext_lanes
  · rfl
  · intro i
    rw [MultiPipe.deliver_getElem?, MultiPipe.deliver_getElem?, MultiPipe.deliver_getElem?]
    cases mp.lanes[i]? <;> simp [Lane.put_put]

theorem MultiPipe.deliver_allOpen (mp : MultiPipe) (f : Nat → List UInt8) (h : mp.AllOpen) :
    (mp.deliver f).AllOpen := by
  intro l hl
  obtain ⟨i, hi⟩ := List.mem_iff_getElem?.1 hl
  rw [MultiPipe.deliver_getElem?] at hi
  cases hq : mp.lanes[i]? with
  | none => simp [hq] at hi
  | some l0 =>
    simp only [hq, Option.map_some', Option.some.injEq] at hi
    rw [← hi, Lane.put_closes]
    exact h l0 (List.mem_iff_getElem?.2 ⟨i, hq⟩)

/-- Room for `f` followed by `g` is room for `f`, and then room for `g`. -/
theorem MultiPipe.Fits_append (mp : MultiPipe) (f g : Nat → List UInt8)
    (h : mp.Fits fun i => f i ++ g i) : mp.Fits f ∧ (mp.deliver f).Fits g := by
  constructor
  · intro i l hl ho
    have := h i l hl ho
    simp only [List.length_append] at this
    omega
  · intro i l hl ho
    rw [MultiPipe.deliver_getElem?] at hl
    cases hq : mp.lanes[i]? with
    | none => simp [hq] at hl
    | some l0 =>
      simp only [hq, Option.map_some', Option.some.injEq] at hl
      subst hl
      rw [Lane.put_closes] at ho
      have := h i l0 hq ho
      rw [Lane.put_open l0 (f i) ho, MultiPipe.deliver_capacity]
      simp only [List.length_append] at this ⊢
      omega

theorem MultiPipe.Pipe_of_lt (mp : MultiPipe) (num : Int) (h0 : 0 ≤ num)
    (h1 : num < mp.lanes.length) :
    mp.Pipe num = some ({ lane := num.toNat }, { lane := num.toNat }) := by
  simp [MultiPipe.Pipe, h0, h1]

/-- The pipe after one write that returned. -/
theorem MultiPipe.set_put (mp : MultiPipe) (k : Nat) (l : Lane) (data : List UInt8)
    (hl : mp.lanes[k]? = some l) :
    ({ mp with lanes := mp.lanes.set k (l.put data) } : MultiPipe) =
      mp.deliver fun i => if k = i then data else [] := by
  have hlt : k < mp.lanes.length := by
    rcases List.getElem?_eq_some.1 hl with ⟨h, _⟩
    exact h
  apply MultiPipe.ext_lanes
  · rfl
  · intro j
    rw [MultiPipe.deliver_getElem?]
    simp only [List.getElem?_set, hlt, if_true]
    by_cases hj : k = j
    · subst hj
      simp [hl]
    · simp only [hj, if_false]
      cases mp.lanes[j]? <;> simp [Lane.put_nil]

theorem shareOf_cons_nat (num : Int) (data : List UInt8) (rest : List (Int × List UInt8))
    (h0 : 0 ≤ num) (i : Nat) :
    shareOf ((num, data) :: rest) i =
      (if num.toNat = i then data else []) ++ shareOf rest i := by
  rw [shareOf_cons]
  by_cases h : num.toNat = i
  · have : num = (i : Int) := by omega
    simp [h, this]
  · have : ¬ num = (i : Int) := by omega
    simp [h, this]

/-- A run of the callback returns exactly when every call addresses a lane of the pipe and
every open lane has room for the bytes addressed to it; the pipe then holds them. -/
theorem emit_eq (emits : List (Int × List UInt8)) :
    ∀ (mp : MultiPipe) (w : Option Error),
      (∀ p ∈ emits, 0 ≤ p.1 ∧ p.1 < mp.lanes.length) →
      mp.Fits (fun i => shareOf emits i) →
      ∃ w1, emit mp w emits = some (mp.deliver (fun i => shareOf emits i), w1) ∧
        (mp.AllOpen → w = none → w1 = none) := by
  induction emits with
  | nil =>
    intro mp w _ _
    refine ⟨w, ?_, fun _ h => h⟩
    simp only [emit, shareOf_nil]
    rw [MultiPipe.deliver_nil]
  | cons p rest ih =>
    intro mp w hr hfit
    obtain ⟨num, data⟩ := p
    have hp := hr (num, data) (List.mem_cons_self _ _)
    simp only at hp
    have hlt : num.toNat < mp.lanes.length := by omega
    obtain ⟨l, hl⟩ : ∃ l, mp.lanes[num.toNat]? = some l :=
      ⟨mp.lanes[num.toNat], List.getElem?_eq_getElem hlt⟩
    have hsplit : (fun i : Nat => shareOf ((num, data) :: rest) i) =
        fun i : Nat => (if num.toNat = i then data else []) ++ shareOf rest i := by
      funext i
      exact shareOf_cons_nat num data rest hp.1 i
    rw [hsplit] at hfit ⊢
    obtain ⟨hfit1, hfit2⟩ := MultiPipe.Fits_append mp _ _ hfit
    rw [← MultiPipe.set_put mp num.toNat l data hl] at hfit2
    have hwrite : ∃ e, l.Write mp.capacity data = some (l.put data, e) ∧
        (l.closes = [] → e = none) := by
      by_cases hc : l.closes = []
      · have := hfit1 num.toNat l hl hc
        simp only [if_true] at this
        exact ⟨none, Lane.Write_open l _ data hc this, fun _ => rfl⟩
      · exact ⟨_, Lane.Write_closed l _ data hc, fun h => absurd h hc⟩
    obtain ⟨e, he, heo⟩ := hwrite
    have hrest : ∀ q ∈ rest, 0 ≤ q.1 ∧
        q.1 < (({ mp with lanes := mp.lanes.set num.toNat (l.put data) } : MultiPipe).lanes.length) := by
      intro q hq
      simpa using hr q (List.mem_cons_of_mem _ hq)
    obtain ⟨w1, hw1, hopen⟩ := ih _ e hrest hfit2
    refine ⟨w1, ?_, ?_⟩
    · simp only [emit, MultiPipe.Pipe_of_lt mp num hp.1 hp.2, PipeWriter.Write, hl, he, hw1]
      rw [MultiPipe.set_put mp num.toNat l data hl, MultiPipe.deliver_deliver]
    · intro ho _
      have hlo : l.closes = [] := ho l (List.mem_iff_getElem?.2 ⟨_, hl⟩)
      apply hopen
      · rw [MultiPipe.set_put mp num.toNat l data hl]
        exact MultiPipe.deliver_allOpen _ _ ho
      · exact heo hlo

theorem stripesOf_length (n : Nat) : ∀ (k : Nat) (data : List UInt8),
    (stripesOf n data k).length = k := by
  intro k
  induction k with
  | zero => intro data; rfl
  | succ k ih => intro data; simp [stripesOf, ih]

theorem stripesOf_mem_length (n : Nat) : ∀ (k : Nat) (data : List UInt8),
    k * n ≤ data.length → ∀ s ∈ stripesOf n data k, s.length = n := by
  intro k
  induction k with
  | zero => intro data _ s hs; simp [stripesOf] at hs
  | succ k ih =>
    intro data hk s hs
    have hk1 : k * n + n ≤ data.length := by
      rw [Nat.add_mul, Nat.one_mul] at hk
      exact hk
    simp only [stripesOf, List.mem_cons] at hs
    rcases hs with h | h
    · rw [h, List.length_take]
      omega
    · refine ih (data.drop n) ?_ s h
      rw [List.length_drop]
      omega

theorem fillLoop_step (ctx : Context) (fuel : Nat) (er : encodedReader) (reads : Nat)
    (encoded : List (List UInt8))
    (hc : ctx reads ≠ some Error.Canceled)
    (hlen : er.inbuf.length ≤ er.r.data.length)
    (henc : (er.rs.Encode (er.r.data.take er.inbuf.length)).2 = none)
    (hr : ∀ p ∈ (er.rs.Encode (er.r.data.take er.inbuf.length)).1,
      0 ≤ p.1 ∧ p.1 < er.pieceBuf.lanes.length)
    (ho : er.pieceBuf.AllOpen)
    (hfit : er.pieceBuf.Fits fun i =>
      shareOf (er.rs.Encode (er.r.data.take er.inbuf.length)).1 i) :
    fillLoop ctx (fuel + 1) er reads encoded =
      fillLoop ctx fuel
        { r := { data := er.r.data.drop er.inbuf.length, term := er.r.term },
          rs := er.rs,
          inbuf := er.r.data.take er.inbuf.length,
          pieceBuf := er.pieceBuf.deliver fun i =>
            shareOf (er.rs.Encode (er.r.data.take er.inbuf.length)).1 i }
        (reads + 1) (encoded ++ [er.r.data.take er.inbuf.length]) := by
  obtain ⟨w1, hw1, hopen⟩ := emit_eq _ er.pieceBuf none hr hfit
  have hw : w1 = none := hopen ho rfl
  subst hw
  simp only [fillLoop, hc, if_false, ReadFull, hlen, if_true, hw1, henc, CombineErrors]

theorem fillLoop_stripes (ctx : Context) : ∀ (k fuel : Nat) (er : encodedReader) (reads : Nat)
    (encoded : List (List UInt8)),
    k * er.inbuf.length ≤ er.r.data.length →
    (∀ j, j < k → ctx (reads + j) ≠ some Error.Canceled) →
    (∀ s ∈ stripesOf er.inbuf.length er.r.data k,
      (er.rs.Encode s).2 = none ∧
      ∀ p ∈ (er.rs.Encode s).1, 0 ≤ p.1 ∧ p.1 < er.pieceBuf.lanes.length) →
    er.pieceBuf.AllOpen →
    (er.pieceBuf.Fits fun i =>
      (stripesOf er.inbuf.length er.r.data k).flatMap fun s => shareOf (er.rs.Encode s).1 i) →
    ∃ inbuf, inbuf.length = er.inbuf.length ∧
      fillLoop ctx (fuel + k) er reads encoded =
        fillLoop ctx fuel
          { r := { data := er.r.data.drop (k * er.inbuf.length), term := er.r.term },
            rs := er.rs,
            inbuf := inbuf,
            pieceBuf := er.pieceBuf.deliver fun i =>
              (stripesOf er.inbuf.length er.r.data k).flatMap fun s =>
                shareOf (er.rs.Encode s).1 i }
          (reads + k) (encoded ++ stripesOf er.inbuf.length er.r.data k) := by
  intro k
  induction k with
  | zero =>
    intro fuel er reads encoded _ _ _ _ _
    refine ⟨er.inbuf, rfl, ?_⟩
    simp only [stripesOf, List.flatMap_nil, MultiPipe.deliver_nil, Nat.zero_mul, List.drop_zero,
      Nat.add_zero, List.append_nil]
  | succ k ih =>
    intro fuel er reads encoded hk hctx hs ho hfit
    simp only [stripesOf, List.flatMap_cons] at hfit
    obtain ⟨hfit1, hfit2⟩ := MultiPipe.Fits_append _ _ _ hfit
    have hk1 : k * er.inbuf.length + er.inbuf.length ≤ er.r.data.length := by
      rw [Nat.add_mul, Nat.one_mul] at hk
      exact hk
    have hlen : er.inbuf.length ≤ er.r.data.length := by omega
    have htake : (er.r.data.take er.inbuf.length).length = er.inbuf.length := by
      rw [List.length_take]
      omega
    have h1 := hs (er.r.data.take er.inbuf.length) (by simp [stripesOf])
    have hstep := fillLoop_step ctx (fuel + k) er reads encoded
      (by simpa using hctx 0 (Nat.succ_pos k)) hlen h1.1 h1.2 ho hfit1
    obtain ⟨inbuf, hin, hrec⟩ := ih fuel
      { r := { data := er.r.data.drop er.inbuf.length, term := er.r.term },
        rs := er.rs,
        inbuf := er.r.data.take er.inbuf.length,
        pieceBuf := er.pieceBuf.deliver fun i =>
          shareOf (er.rs.Encode (er.r.data.take er.inbuf.length)).1 i }
      (reads + 1) (encoded ++ [er.r.data.take er.inbuf.length])
      (by simp only [htake, List.length_drop]; omega)
      (by
        intro j hj
        have := hctx (j + 1) (by omega)
        rwa [show reads + 1 + j = reads + (j + 1) by omega])
      (by
        intro s hsm
        simp only [htake] at hsm
        have := hs s (by simp [stripesOf, hsm])
        simpa [MultiPipe.deliver_length] using this)
      (MultiPipe.deliver_allOpen _ _ ho)
      (by
        simp only [htake]
        exact hfit2)
    refine ⟨inbuf, by rw [hin, htake], ?_⟩
    rw [show fuel + (k + 1) = fuel + k + 1 from rfl, hstep, hrec]
    simp only [htake, List.drop_drop, MultiPipe.deliver_deliver, stripesOf, List.flatMap_cons,
      List.append_assoc, List.singleton_append]
    rw [show er.inbuf.length + k * er.inbuf.length = (k + 1) * er.inbuf.length by
      rw [Nat.add_mul, Nat.one_mul]; omega, show reads + 1 + k = reads + (k + 1) by omega]

theorem MultiPipe.closeBelow_getElem? (mp : MultiPipe) (m : Nat) (err : Option Error) (i : Nat) :
    (mp.closeBelow m err).lanes[i]? =
      (mp.lanes[i]?).map fun l => if i < m then l.CloseWithError err else l := by
  simp [MultiPipe.closeBelow]

theorem closeAll_eq (err : Option Error) : ∀ (idxs : List Nat) (mp : MultiPipe),
    idxs.Nodup → (∀ i ∈ idxs, i < mp.lanes.length) →
    closeAll err mp idxs = some { mp with lanes := mp.lanes.mapIdx fun j l =>
      if (j ∈ idxs) then (l.CloseWithError err) else l } := by
  intro idxs
  induction idxs with
  | nil =>
    intro mp _ _
    simp only [closeAll, List.not_mem_nil, if_false]
    congr 1
    apply MultiPipe.ext_lanes
    · rfl
    · intro i
      simp
  | cons i rest ih =>
    intro mp hnd hlt
    have hi : i < mp.lanes.length := hlt i (List.mem_cons_self _ _)
    obtain ⟨l, hl⟩ : ∃ l, mp.lanes[i]? = some l := ⟨mp.lanes[i], List.getElem?_eq_getElem hi⟩
    have hnd1 := List.nodup_cons.1 hnd
    have hpipe := MultiPipe.Pipe_of_lt mp (i : Int) (by omega) (by exact_mod_cast hi)
    simp only [Int.toNat_ofNat] at hpipe
    simp only [closeAll, hpipe, PipeWriter.CloseWithError, hl]
    rw [ih _ hnd1.2 (by
      intro j hj
      simpa using hlt j (List.mem_cons_of_mem _ hj))]
    congr 1
    apply MultiPipe.ext_lanes
    · rfl
    · intro j
      simp only [List.getElem?_mapIdx, List.getElem?_set, hi, if_true, List.mem_cons]
      by_cases hj : i = j
      · subst hj
        simp [hl, hnd1.1]
      · have hj1 : ¬ j = i := fun h => hj h.symm
        simp [hj, hj1]

theorem closeAll_range (err : Option Error) (mp : MultiPipe) (m : Nat)
    (hm : m ≤ mp.lanes.length) :
    closeAll err mp (List.range m) = some (mp.closeBelow m err) := by
  rw [closeAll_eq err _ mp (List.nodup_range m) (by
    intro i hi
    have := List.mem_range.1 hi
    omega)]
  simp only [List.mem_range, MultiPipe.closeBelow]

theorem fillBuffer_of_loop (er : encodedReader) (fuel : Nat) (ctx : Context) (run : Run)
    (h : fillLoop ctx fuel er 0 [] = some run)
    (htot : run.er.rs.TotalCount.toNat ≤ run.er.pieceBuf.lanes.length) :
    er.fillBuffer fuel ctx = some { run with er := { run.er with
      pieceBuf := run.er.pieceBuf.closeBelow run.er.rs.TotalCount.toNat (closeCause run.exit) } } := by
  simp only [encodedReader.fillBuffer, h, closeAll_range _ _ _ htot]

theorem fillLoop_cancel (ctx : Context) (fuel : Nat) (er : encodedReader) (reads : Nat)
    (encoded : List (List UInt8)) (hc : ctx reads = some Error.Canceled) :
    fillLoop ctx (fuel + 1) er reads encoded =
      some { er := er, reads := reads, encoded := encoded, exit := Error.Canceled } := by
  simp only [fillLoop, hc, if_true]

theorem fillLoop_short (ctx : Context) (fuel : Nat) (er : encodedReader) (reads : Nat)
    (encoded : List (List UInt8)) (hc : ctx reads ≠ some Error.Canceled)
    (hlen : er.r.data.length < er.inbuf.length) :
    fillLoop ctx (fuel + 1) er reads encoded =
      some { er := { r := { data := [], term := er.r.term }, rs := er.rs,
                     inbuf := er.r.data ++ er.inbuf.drop er.r.data.length,
                     pieceBuf := er.pieceBuf },
             reads := reads + 1, encoded := encoded,
             exit := if er.r.data ≠ [] ∧ er.r.term = Error.EOF then Error.ErrUnexpectedEOF
                     else er.r.term } := by
  have h : ¬ er.inbuf.length ≤ er.r.data.length := by omega
  simp only [fillLoop, hc, if_false, ReadFull, h]

/-- The run of the producer over `k` whole stripes followed by a failing read. -/
theorem fillBuffer_short (ctx : Context) (er : encodedReader) (k fuel : Nat)
    (hk : k * er.inbuf.length ≤ er.r.data.length)
    (hlt : er.r.data.length < (k + 1) * er.inbuf.length)
    (hctx : ∀ j, j ≤ k → ctx j ≠ some Error.Canceled)
    (hs : ∀ s ∈ stripesOf er.inbuf.length er.r.data k,
      (er.rs.Encode s).2 = none ∧
      ∀ p ∈ (er.rs.Encode s).1, 0 ≤ p.1 ∧ p.1 < er.pieceBuf.lanes.length)
    (ho : er.pieceBuf.AllOpen)
    (hfit : er.pieceBuf.Fits fun i =>
      (stripesOf er.inbuf.length er.r.data k).flatMap fun s => shareOf (er.rs.Encode s).1 i)
    (htot : er.rs.TotalCount.toNat ≤ er.pieceBuf.lanes.length) :
    ∃ run, er.fillBuffer (fuel + 1 + k) ctx = some run ∧
      run.reads = k + 1 ∧
      run.encoded = stripesOf er.inbuf.length er.r.data k ∧
      run.exit = (if er.r.data.length ≠ k * er.inbuf.length ∧ er.r.term = Error.EOF
        then Error.ErrUnexpectedEOF else er.r.term) ∧
      run.er.rs = er.rs ∧
      run.er.r = { data := [], term := er.r.term } ∧
      run.er.pieceBuf = (er.pieceBuf.deliver fun i =>
          (stripesOf er.inbuf.length er.r.data k).flatMap fun s =>
            shareOf (er.rs.Encode s).1 i).closeBelow er.rs.TotalCount.toNat
        (closeCause (if er.r.data.length ≠ k * er.inbuf.length ∧ er.r.term = Error.EOF
          then Error.ErrUnexpectedEOF else er.r.term)) := by
  obtain ⟨inbuf, hin, hloop⟩ := fillLoop_stripes ctx k (fuel + 1) er 0 [] hk
    (fun j hj => by simpa using hctx j (by omega)) hs ho hfit
  have hrem : (er.r.data.drop (k * er.inbuf.length)).length < inbuf.length := by
    rw [List.length_drop, hin]
    rw [Nat.add_mul, Nat.one_mul] at hlt
    omega
  have hne : (er.r.data.drop (k * er.inbuf.length) ≠ []) ↔
      er.r.data.length ≠ k * er.inbuf.length := by
    rw [Ne, List.drop_eq_nil_iff]
    omega
  rw [fillLoop_short ctx fuel _ _ _ (by simpa using hctx k (Nat.le_refl k)) hrem] at hloop
  simp only [Nat.zero_add, List.nil_append, hne] at hloop
  refine ⟨_, fillBuffer_of_loop er _ ctx _ hloop ?_, rfl, rfl, rfl, rfl, rfl, rfl⟩
  simpa [MultiPipe.deliver_length] using htot

/-- The run of the producer over `k` whole stripes followed by a cancellation. -/
theorem fillBuffer_cancel (ctx : Context) (er : encodedReader) (k fuel : Nat)
    (hk : k * er.inbuf.length ≤ er.r.data.length)
    (hctx : ∀ j, j < k → ctx j ≠ some Error.Canceled)
    (hcan : ctx k = some Error.Canceled)
    (hs : ∀ s ∈ stripesOf er.inbuf.length er.r.data k,
      (er.rs.Encode s).2 = none ∧
      ∀ p ∈ (er.rs.Encode s).1, 0 ≤ p.1 ∧ p.1 < er.pieceBuf.lanes.length)
    (ho : er.pieceBuf.AllOpen)
    (hfit : er.pieceBuf.Fits fun i =>
      (stripesOf er.inbuf.length er.r.data k).flatMap fun s => shareOf (er.rs.Encode s).1 i)
    (htot : er.rs.TotalCount.toNat ≤ er.pieceBuf.lanes.length) :
    ∃ run, er.fillBuffer (fuel + 1 + k) ctx = some run ∧
      run.reads = k ∧
      run.encoded = stripesOf er.inbuf.length er.r.data k ∧
      run.exit = Error.Canceled ∧
      run.er.rs = er.rs ∧
      run.er.r = { data := er.r.data.drop (k * er.inbuf.length), term := er.r.term } ∧
      run.er.pieceBuf = (er.pieceBuf.deliver fun i =>
          (stripesOf er.inbuf.length er.r.data k).flatMap fun s =>
            shareOf (er.rs.Encode s).1 i).closeBelow er.rs.TotalCount.toNat
        (some Error.Canceled) := by
  obtain ⟨inbuf, _, hloop⟩ := fillLoop_stripes ctx k (fuel + 1) er 0 [] hk
    (fun j hj => by simpa using hctx j hj) hs ho hfit
  rw [fillLoop_cancel ctx fuel _ _ _ (by simpa using hcan)] at hloop
  simp only [Nat.zero_add, List.nil_append] at hloop
  refine ⟨_, fillBuffer_of_loop er _ ctx _ hloop ?_, rfl, rfl, rfl, rfl, rfl, rfl⟩
  simpa [MultiPipe.deliver_length] using htot

theorem NewMultiPipeMemory_getElem? (pipeCount pipeSize : Int) (i : Nat)
    (hi : (i : Int) < pipeCount) :
    (NewMultiPipeMemory pipeCount pipeSize).lanes[i]? = some { buf := [], closes := [] } := by
  have : i < pipeCount.toNat := by omega
  simp [NewMultiPipeMemory, List.getElem?_replicate, this]

theorem NewMultiPipeMemory_length (pipeCount pipeSize : Int) :
    (NewMultiPipeMemory pipeCount pipeSize).lanes.length = pipeCount.toNat := by
  simp [NewMultiPipeMemory]

theorem NewMultiPipeMemory_allOpen (pipeCount pipeSize : Int) :
    (NewMultiPipeMemory pipeCount pipeSize).AllOpen := by
  intro l hl
  simp only [NewMultiPipeMemory, List.mem_replicate] at hl
  rw [hl.2]

/-- Lane `i` of a fresh pipe after the deliveries `f` and the closing loop. -/
theorem fresh_lane (pipeCount pipeSize : Int) (f : Nat → List UInt8) (cause : Option Error)
    (i : Nat) (hi : (i : Int) < pipeCount) :
    (((NewMultiPipeMemory pipeCount pipeSize).deliver f).closeBelow pipeCount.toNat
      cause).lanes[i]? = some { buf := f i, closes := [cause] } := by
  have h : i < pipeCount.toNat := by omega
  rw [MultiPipe.closeBelow_getElem?, MultiPipe.deliver_getElem?,
    NewMultiPipeMemory_getElem? _ _ _ hi]
  simp [h, Lane.put, Lane.CloseWithError]

/-- A fresh pipe has room for `f` when no lane is given more bytes than the capacity. -/
theorem fresh_fits (pipeCount pipeSize : Int) (f : Nat → List UInt8)
    (h : ∀ i : Nat, (i : Int) < pipeCount → ((f i).length : Int) ≤ pipeSize) :
    (NewMultiPipeMemory pipeCount pipeSize).Fits f := by
  intro i l hl _
  have hlt : i < (NewMultiPipeMemory pipeCount pipeSize).lanes.length := by
    rcases List.getElem?_eq_some.1 hl with ⟨h1, _⟩
    exact h1
  rw [NewMultiPipeMemory_length] at hlt
  have hi : (i : Int) < pipeCount := by omega
  rw [NewMultiPipeMemory_getElem? _ _ _ hi] at hl
  simp only [Option.some.injEq] at hl
  subst hl
  have := h i hi
  simp only [List.length_nil, Nat.zero_add]
  exact this

theorem pipeReaders_eq (mp : MultiPipe) : ∀ (idxs : List Nat),
    (∀ i ∈ idxs, i < mp.lanes.length) →
    pipeReaders mp idxs = some (idxs.map fun i => { lane := i }) := by
  intro idxs
  induction idxs with
  | nil => intro _; rfl
  | cons i rest ih =>
    intro h
    have hi : i < mp.lanes.length := h i (List.mem_cons_self _ _)
    have hpipe := MultiPipe.Pipe_of_lt mp (i : Int) (by omega) (by exact_mod_cast hi)
    simp only [Int.toNat_ofNat] at hpipe
    simp only [pipeReaders, hpipe, ih fun j hj => h j (List.mem_cons_of_mem _ hj), List.map_cons]

theorem EncodeReader_ok (r : Reader) (rs : RedundancyStrategy) (maxSize : Int)
    (hmax : 0 ≤ maxSize) (hreq : rs.RequiredCount ≠ 0) (hstripe : 0 ≤ rs.StripeSize)
    (htot : 0 ≤ rs.TotalCount) :
    EncodeReader r rs maxSize = Outcome.ok
      ((List.range rs.TotalCount.toNat).map (fun i => { lane := i }),
        { r := r, rs := rs, inbuf := List.replicate rs.StripeSize.toNat 0,
          pieceBuf := NewMultiPipeMemory rs.TotalCount (maxSize.tdiv rs.RequiredCount) }) := by
  have h1 : ¬ maxSize < 0 := by omega
  have h2 : ¬ rs.StripeSize < 0 := by omega
  have h3 : ¬ rs.TotalCount < 0 := by omega
  simp only [EncodeReader, checkMaxSize, h1, if_false, hreq, h2, h3]
  rw [pipeReaders_eq _ _ (by
    intro i hi
    rw [NewMultiPipeMemory_length]
    exact List.mem_range.1 hi)]

theorem EncodeReader_inv (r : Reader) (rs : RedundancyStrategy) (maxSize : Int)
    (readers : List PipeReader) (er : encodedReader)
    (h : EncodeReader r rs maxSize = Outcome.ok (readers, er)) :
    0 ≤ maxSize ∧ rs.RequiredCount ≠ 0 ∧ 0 ≤ rs.StripeSize ∧ 0 ≤ rs.TotalCount ∧
    readers = (List.range rs.TotalCount.toNat).map (fun i => { lane := i }) ∧
    er = { r := r, rs := rs, inbuf := List.replicate rs.StripeSize.toNat 0,
           pieceBuf := NewMultiPipeMemory rs.TotalCount (maxSize.tdiv rs.RequiredCount) } := by
  by_cases h1 : maxSize < 0
  · simp [EncodeReader, checkMaxSize, h1] at h
  by_cases h2 : rs.RequiredCount = 0
  · simp [EncodeReader, checkMaxSize, h1, h2] at h
  by_cases h3 : rs.StripeSize < 0
  · simp [EncodeReader, checkMaxSize, h1, h2, h3] at h
  by_cases h4 : rs.TotalCount < 0
  · simp [EncodeReader, checkMaxSize, h1, h2, h3, h4] at h
  rw [EncodeReader_ok r rs maxSize (by omega) h2 (by omega) (by omega)] at h
  simp only [Outcome.ok.injEq, Prod.mk.injEq] at h
  exact ⟨by omega, h2, by omega, by omega, h.1.symm, h.2.symm⟩

/-- The producer started by `EncodeReader`, over `k` whole stripes and a failing read. -/
theorem producer_short (rs : RedundancyStrategy) (input : List UInt8) (term : Error)
    (maxSize : Int) (ctx : Context) (readers : List PipeReader) (er : encodedReader) (k : Nat)
    (hER : EncodeReader { data := input, term := term } rs maxSize = Outcome.ok (readers, er))
    (hk : k * rs.StripeSize.toNat ≤ input.length)
    (hlt : input.length < (k + 1) * rs.StripeSize.toNat)
    (hctx : ∀ j, j ≤ k → ctx j ≠ some Error.Canceled)
    (hs : ∀ s ∈ stripesOf rs.StripeSize.toNat input k,
      (rs.Encode s).2 = none ∧ ∀ p ∈ (rs.Encode s).1, 0 ≤ p.1 ∧ p.1 < rs.TotalCount)
    (hfit : ∀ i : Nat, (i : Int) < rs.TotalCount →
      ((laneOf rs.toErasureScheme input k i).length : Int) ≤ maxSize.tdiv rs.RequiredCount)
    (fuel : Nat) (hfuel : k < fuel) :
    ∃ run, er.fillBuffer fuel ctx = some run ∧
      run.reads = k + 1 ∧
      run.encoded = stripesOf rs.StripeSize.toNat input k ∧
      run.exit = (if input.length ≠ k * rs.StripeSize.toNat ∧ term = Error.EOF
        then Error.ErrUnexpectedEOF else term) ∧
      run.er.r = { data := [], term := term } ∧
      ∀ i : Nat, (i : Int) < rs.TotalCount →
        run.er.pieceBuf.lanes[i]? = some
          { buf := laneOf rs.toErasureScheme input k i,
            closes := [closeCause (if input.length ≠ k * rs.StripeSize.toNat ∧ term = Error.EOF
              then Error.ErrUnexpectedEOF else term)] } := by
  obtain ⟨_, _, _, htot, _, her⟩ := EncodeReader_inv _ _ _ _ _ hER
  obtain ⟨f, hf⟩ : ∃ f, fuel = f + 1 + k := ⟨fuel - 1 - k, by omega⟩
  subst hf
  subst her
  obtain ⟨run, hrun, h1, h2, h3, _, h5, h6⟩ := fillBuffer_short ctx
    { r := { data := input, term := term }, rs := rs,
      inbuf := List.replicate rs.StripeSize.toNat 0,
      pieceBuf := NewMultiPipeMemory rs.TotalCount (maxSize.tdiv rs.RequiredCount) } k f
    (by simpa using hk) (by simpa using hlt) hctx
    (by
      intro s hsm
      simp only [List.length_replicate] at hsm
      have := hs s hsm
      refine ⟨this.1, fun p hp => ?_⟩
      have := this.2 p hp
      simp only [NewMultiPipeMemory_length]
      omega)
    (NewMultiPipeMemory_allOpen _ _)
    (by
      simp only [List.length_replicate]
      exact fresh_fits _ _ _ hfit)
    (by simp [NewMultiPipeMemory_length])
  simp only [List.length_replicate] at h2 h3 h6
  refine ⟨run, hrun, h1, h2, h3, h5, fun i hi => ?_⟩
  rw [h6, fresh_lane _ _ _ _ i hi]
  rfl

/-- The producer started by `EncodeReader`, over `k` whole stripes and a cancellation. -/
theorem producer_cancel (rs : RedundancyStrategy) (input : List UInt8) (term : Error)
    (maxSize : Int) (ctx : Context) (readers : List PipeReader) (er : encodedReader) (k : Nat)
    (hER : EncodeReader { data := input, term := term } rs maxSize = Outcome.ok (readers, er))
    (hk : k * rs.StripeSize.toNat ≤ input.length)
    (hctx : ∀ j, j < k → ctx j ≠ some Error.Canceled)
    (hcan : ctx k = some Error.Canceled)
    (hs : ∀ s ∈ stripesOf rs.StripeSize.toNat input k,
      (rs.Encode s).2 = none ∧ ∀ p ∈ (rs.Encode s).1, 0 ≤ p.1 ∧ p.1 < rs.TotalCount)
    (hfit : ∀ i : Nat, (i : Int) < rs.TotalCount →
      ((laneOf rs.toErasureScheme input k i).length : Int) ≤ maxSize.tdiv rs.RequiredCount)
    (fuel : Nat) (hfuel : k < fuel) :
    ∃ run, er.fillBuffer fuel ctx = some run ∧
      run.reads = k ∧
      run.encoded = stripesOf rs.StripeSize.toNat input k ∧
      run.exit = Error.Canceled ∧
      run.er.r = { data := input.drop (k * rs.StripeSize.toNat), term := term } ∧
      ∀ i : Nat, (i : Int) < rs.TotalCount →
        run.er.pieceBuf.lanes[i]? = some
          { buf := laneOf rs.toErasureScheme input k i, closes := [some Error.Canceled] } := by
  obtain ⟨_, _, _, htot, _, her⟩ := EncodeReader_inv _ _ _ _ _ hER
  obtain ⟨f, hf⟩ : ∃ f, fuel = f + 1 + k := ⟨fuel - 1 - k, by omega⟩
  subst hf
  subst her
  obtain ⟨run, hrun, h1, h2, h3, _, h5, h6⟩ := fillBuffer_cancel ctx
    { r := { data := input, term := term }, rs := rs,
      inbuf := List.replicate rs.StripeSize.toNat 0,
      pieceBuf := NewMultiPipeMemory rs.TotalCount (maxSize.tdiv rs.RequiredCount) } k f
    (by simpa using hk) hctx hcan
    (by
      intro s hsm
      simp only [List.length_replicate] at hsm
      have := hs s hsm
      refine ⟨this.1, fun p hp => ?_⟩
      have := this.2 p hp
      simp only [NewMultiPipeMemory_length]
      omega)
    (NewMultiPipeMemory_allOpen _ _)
    (by
      simp only [List.length_replicate]
      exact fresh_fits _ _ _ hfit)
    (by simp [NewMultiPipeMemory_length])
  simp only [List.length_replicate] at h2 h5 h6
  refine ⟨run, hrun, h1, h2, h3, h5, fun i hi => ?_⟩
  rw [h6, fresh_lane _ _ _ _ i hi]
  rfl

theorem stripesOf_take_bytes (n : Nat) : ∀ (b m : Nat) (data : List UInt8),
    b * n ≤ m → stripesOf n (data.take m) b = stripesOf n data b := by
  intro b
  induction b with
  | zero => intro m data _; rfl
  | succ b ih =>
    intro m data h
    rw [Nat.add_mul, Nat.one_mul] at h
    simp only [stripesOf]
    rw [List.take_take, Nat.min_eq_left (by omega), List.drop_take, ih (m - n) _ (by omega)]

theorem stripesOf_drop_bytes (n : Nat) : ∀ (a b : Nat) (data : List UInt8),
    stripesOf n (data.drop (a * n)) b = (stripesOf n data (a + b)).drop a := by
  intro a
  induction a with
  | zero => intro b data; simp
  | succ a ih =>
    intro b data
    rw [show a + 1 + b = (a + b) + 1 by omega]
    simp only [stripesOf, List.drop_succ_cons]
    rw [← ih b (data.drop n), List.drop_drop, Nat.add_mul, Nat.one_mul, Nat.add_comm]

theorem stripesOf_take_count (n : Nat) : ∀ (m K : Nat) (data : List UInt8),
    m ≤ K → (stripesOf n data K).take m = stripesOf n data m := by
  intro m
  induction m with
  | zero => intro K data _; simp [stripesOf]
  | succ m ih =>
    intro K data h
    obtain ⟨K0, rfl⟩ : ∃ K0, K = K0 + 1 := ⟨K - 1, by omega⟩
    simp only [stripesOf, List.take_succ_cons]
    rw [ih K0 _ (by omega)]

theorem flatMap_take_const {α : Type} (g : α → List UInt8) (c : Nat) : ∀ (L : List α) (m : Nat),
    (∀ s ∈ L, (g s).length = c) → (L.take m).flatMap g = (L.flatMap g).take (m * c) := by
  intro L
  induction L with
  | nil => intro m _; simp
  | cons x L ih =>
    intro m h
    cases m with
    | zero => simp
    | succ m =>
      have hx : (g x).length = c := h x (List.mem_cons_self _ _)
      rw [List.take_succ_cons, List.flatMap_cons, List.flatMap_cons,
        ih m fun s hs => h s (List.mem_cons_of_mem _ hs), Nat.add_mul, Nat.one_mul,
        Nat.add_comm (m * c) c]
      conv_rhs => rw [← hx]
      rw [List.take_append, hx]

theorem flatMap_drop_const {α : Type} (g : α → List UInt8) (c : Nat) : ∀ (L : List α) (m : Nat),
    (∀ s ∈ L, (g s).length = c) → (L.drop m).flatMap g = (L.flatMap g).drop (m * c) := by
  intro L
  induction L with
  | nil => intro m _; simp
  | cons x L ih =>
    intro m h
    cases m with
    | zero => simp
    | succ m =>
      have hx : (g x).length = c := h x (List.mem_cons_self _ _)
      rw [List.drop_succ_cons, List.flatMap_cons,
        ih m fun s hs => h s (List.mem_cons_of_mem _ hs), Nat.add_mul, Nat.one_mul,
        Nat.add_comm (m * c) c]
      conv_rhs => rw [← hx]
      rw [List.drop_append, hx]

/-- The encoding of the stripes `a .. a+b-1` of `data` on a lane is the slice
`[a*c, (a+b)*c)` of the encoding of `data`, when every share has `c` bytes. -/
theorem laneOf_slice (es : ErasureScheme) (data : List UInt8) (K a b c : Nat) (i : Int)
    (hab : a + b ≤ K)
    (hc : ∀ s ∈ stripesOf es.StripeSize.toNat data K, (shareOf (es.Encode s).1 i).length = c) :
    laneOf es ((data.drop (a * es.StripeSize.toNat)).take (b * es.StripeSize.toNat)) b i =
      ((laneOf es data K i).drop (a * c)).take (b * c) := by
  unfold laneOf
  rw [stripesOf_take_bytes _ _ _ _ (Nat.le_refl _), stripesOf_drop_bytes,
    ← stripesOf_take_count _ (a + b) K data hab]
  have hc1 : ∀ s ∈ (stripesOf es.StripeSize.toNat data K).take (a + b),
      (shareOf (es.Encode s).1 i).length = c := fun s hs => hc s (List.mem_of_mem_take hs)
  rw [flatMap_drop_const _ c _ a hc1, flatMap_take_const _ c _ (a + b) hc, List.drop_take,
    Nat.add_mul, Nat.add_sub_cancel_left]

theorem slice_of_slice (X : List UInt8) (a b s l : Nat) (h : s + l ≤ b) :
    (((X.drop a).take b).drop s).take l = (X.drop (a + s)).take l := by
  rw [List.drop_take, List.take_take, Nat.min_eq_left (by omega), List.drop_drop]

theorem LimitReader_clean (r : Stream) (n : Int) (hterm : r.term = none) (hn : 0 ≤ n) :
    LimitReader r n = { bytes := r.bytes.take n.toNat, term := none } := by
  unfold LimitReader
  split_ifs with h
  · have : r.bytes.length ≤ n.toNat := by omega
    rw [List.take_of_length_le this]
    cases r
    simp only at hterm
    subst hterm
    rfl
  · rfl

theorem trimReaders_eq (mp : MultiPipe) (skip length : Int) (B : Nat → List UInt8)
    (hlen : 0 ≤ length) : ∀ (idxs : List Nat),
    (∀ i ∈ idxs, mp.lanes[i]? = some { buf := B i, closes := [none] }) →
    (∀ i ∈ idxs, skip.toNat ≤ (B i).length) →
    trimReaders mp skip length (idxs.map fun i => { lane := i }) =
      Outcome.ok (idxs.map fun i =>
        { bytes := ((B i).drop skip.toNat).take length.toNat, term := none }) := by
  intro idxs
  induction idxs with
  | nil => intro _ _; rfl
  | cons i rest ih =>
    intro hl hs
    have hi := hl i (List.mem_cons_self _ _)
    have hsi := hs i (List.mem_cons_self _ _)
    have hrest := ih (fun j hj => hl j (List.mem_cons_of_mem _ hj))
      (fun j hj => hs j (List.mem_cons_of_mem _ hj))
    simp only [List.map_cons, trimReaders, PipeReader.stream, hi, hrest]
    by_cases h0 : skip ≤ 0
    · have hz : skip.toNat = 0 := by omega
      simp only [CopyN, h0, if_true, hz, List.drop_zero]
      rw [LimitReader_clean _ _ rfl hlen]
    · simp only [CopyN, h0, if_false, hsi, if_true]
      rw [LimitReader_clean _ _ rfl hlen]

theorem CalcEncompassingBlocks_natCast (off len c : Nat) (hc : 0 < c) :
    CalcEncompassingBlocks (off : Int) (len : Int) (c : Int) =
      some (((off / c : Nat) : Int),
        (((if 0 < len then (off + len - 1) / c - off / c + 1 else 0 : Nat)) : Int)) := by
  have hc0 : (c : Int) ≠ 0 := by omega
  unfold CalcEncompassingBlocks
  simp only [hc0, if_false, Option.some.injEq, Prod.mk.injEq]
  constructor
  · rw [Int.tdiv_eq_ediv (by omega) (by omega)]
    norm_cast
  · by_cases hl : 0 < len
    · have hl1 : (0 : Int) < (len : Int) := by omega
      have hmono : off / c ≤ (off + len - 1) / c := Nat.div_le_div_right (by omega)
      have hcast : ((off : Int) + (len : Int) - 1) = (((off + len - 1 : Nat)) : Int) := by omega
      simp only [gt_iff_lt, hl1, if_true, hl]
      rw [hcast, Int.tdiv_eq_ediv (by omega) (by omega), Int.tdiv_eq_ediv (by omega) (by omega)]
      rw [← Int.natCast_div, ← Int.natCast_div]
      omega
    · have hl1 : ¬ (0 : Int) < (len : Int) := by omega
      simp only [gt_iff_lt, hl1, if_false, hl]
      rfl

theorem trimReaders_ok (mp : MultiPipe) (skip length : Int) (hskip : 0 ≤ skip) :
    ∀ (readers : List PipeReader) (streams : List Stream),
    trimReaders mp skip length readers = Outcome.ok streams →
    streams.length = readers.length ∧
    ∀ (i : Nat) (rd : PipeReader), readers[i]? = some rd →
      ∃ s, rd.stream mp = some s ∧ skip.toNat ≤ s.bytes.length ∧
        streams[i]? = some
          (LimitReader { bytes := s.bytes.drop skip.toNat, term := s.term } length) := by
  intro readers
  induction readers with
  | nil =>
    intro streams h
    simp only [trimReaders, Outcome.ok.injEq] at h
    subst h
    exact ⟨rfl, fun i rd hrd => by simp at hrd⟩
  | cons rd0 rest ih =>
    intro streams h
    rw [trimReaders] at h
    cases hs : rd0.stream mp with
    | none => simp [hs] at h
    | some s =>
      simp only [hs] at h
      have hcopy : (skip.toNat ≤ s.bytes.length ∧
          CopyN s skip = ({ bytes := s.bytes.drop skip.toNat, term := s.term }, none)) ∨
          (∃ e, CopyN s skip = ({ bytes := [], term := s.term }, some e)) := by
        unfold CopyN
        by_cases h0 : skip ≤ 0
        · left
          have hz : skip.toNat = 0 := by omega
          refine ⟨by omega, ?_⟩
          simp only [h0, if_true, hz, List.drop_zero]
        · by_cases h1 : skip.toNat ≤ s.bytes.length
          · left
            refine ⟨h1, ?_⟩
            simp only [h0, if_false, h1, if_true]
          · right
            simp only [h0, if_false, h1]
            exact ⟨_, rfl⟩
      rcases hcopy with ⟨hle, hc⟩ | ⟨e, hc⟩
      · simp only [hc] at h
        cases hrest : trimReaders mp skip length rest with
        | ok out =>
          simp only [hrest, Outcome.ok.injEq] at h
          subst h
          obtain ⟨hlen, hall⟩ := ih out hrest
          refine ⟨by simp [hlen], fun i rd hrd => ?_⟩
          cases i with
          | zero =>
            simp only [List.getElem?_cons_zero, Option.some.injEq] at hrd
            subst hrd
            exact ⟨s, hs, hle, by simp⟩
          | succ j =>
            simp only [List.getElem?_cons_succ] at hrd
            obtain ⟨s1, h1, h2, h3⟩ := hall j rd hrd
            exact ⟨s1, h1, h2, by simpa using h3⟩
        | error e => simp [hrest] at h
        | panicked => simp [hrest] at h
      · simp [hc] at h

theorem blocks_bounds (off len c K : Nat) (hc : 0 < c) (hend : off + len ≤ K * c) :
    off / c * c ≤ off ∧ off - off / c * c < c ∧
    off / c + (if 0 < len then (off + len - 1) / c - off / c + 1 else 0) ≤ K := by
  have h1 : off / c * c ≤ off := Nat.div_mul_le_self off c
  have h2 : off < c * (off / c + 1) := Nat.lt_mul_div_succ off hc
  rw [Nat.mul_add, Nat.mul_one, Nat.mul_comm] at h2
  refine ⟨h1, by omega, ?_⟩
  by_cases hl : 0 < len
  · simp only [hl, if_true]
    have hmono : off / c ≤ (off + len - 1) / c := Nat.div_le_div_right (by omega)
    have hlb : (off + len - 1) / c < K := (Nat.div_lt_iff_lt_mul hc).2 (by omega)
    omega
  · simp only [hl, if_false, Nat.add_zero]
    exact Nat.div_le_of_le_mul (by rw [Nat.mul_comm]; omega)

/-- What `io.LimitReader` delivers: the first `n` bytes, then end-of-stream, or the whole
of a shorter stream and its own ending. -/
theorem LimitReader_eq (r : Stream) (n : Int) :
    LimitReader r n =
      { bytes := r.bytes.take n.toNat,
        term := if (r.bytes.length : Int) < n then r.term else none } := by
  unfold LimitReader
  split_ifs with h
  · have : r.bytes.length ≤ n.toNat := by omega
    rw [List.take_of_length_le this]
  · rfl

theorem flatMap_length_const {α : Type} (g : α → List UInt8) (c : Nat) : ∀ (L : List α),
    (∀ s ∈ L, (g s).length = c) → (L.flatMap g).length = L.length * c := by
  intro L
  induction L with
  | nil => intro _; simp
  | cons a L ih =>
    intro h
    rw [List.flatMap_cons, List.length_append, h a (List.mem_cons_self _ _),
      ih fun s hs => h s (List.mem_cons_of_mem _ hs), List.length_cons, Nat.add_mul, Nat.one_mul,
      Nat.add_comm]

theorem shareOf_length_of_perm (emits : List (Int × List UInt8)) (m c i : Nat)
    (hperm : (emits.map Prod.fst).Perm ((List.range m).map Int.ofNat))
    (hlen : ∀ p ∈ emits, p.2.length = c) (hi : i < m) :
    (shareOf emits i).length = c := by
  have hcount : List.count (i : Int) (emits.map Prod.fst) = 1 := by
    rw [hperm.count_eq]
    apply List.count_eq_one_of_mem
    · exact (List.nodup_range m).map Int.ofNat_injective
    · exact List.mem_map.2 ⟨i, List.mem_range.2 hi, rfl⟩
  have hfil : (emits.filter fun p => decide (p.1 = (i : Int))).length = 1 := by
    rw [← hcount, List.count_eq_countP, List.countP_map, List.countP_eq_length_filter]
    congr 2
  obtain ⟨p, hp⟩ := List.length_eq_one.1 hfil
  have hmem : p ∈ emits := by
    have : p ∈ emits.filter fun p => decide (p.1 = (i : Int)) := by simp [hp]
    exact (List.mem_filter.1 this).1
  simp only [shareOf, hp, List.flatMap_cons, List.flatMap_nil, List.append_nil]
  exact hlen p hmem

theorem mem_of_perm_range (emits : List (Int × List UInt8)) (m : Nat)
    (hperm : (emits.map Prod.fst).Perm ((List.range m).map Int.ofNat)) :
    ∀ p ∈ emits, 0 ≤ p.1 ∧ p.1 < (m : Int) := by
  intro p hp
  have h1 : p.1 ∈ (List.range m).map Int.ofNat :=
    hperm.subset (List.mem_map.2 ⟨p, hp, rfl⟩)
  obtain ⟨j, hj, hjp⟩ := List.mem_map.1 h1
  have := List.mem_range.1 hj
  rw [← hjp]
  constructor
  · exact Int.ofNat_nonneg j
  · exact Int.ofNat_lt.2 this

theorem laneOf_length (es : ErasureScheme) (data : List UInt8) (k m c i : Nat)
    (hk : k * es.StripeSize.toNat ≤ data.length)
    (hscheme : ∀ s : List UInt8, s.length = es.StripeSize.toNat →
      ((es.Encode s).1.map Prod.fst).Perm ((List.range m).map Int.ofNat) ∧
      ∀ p ∈ (es.Encode s).1, p.2.length = c)
    (hi : i < m) :
    (laneOf es data k i).length = k * c := by
  unfold laneOf
  rw [flatMap_length_const _ c _ (by
    intro s hsm
    have hsl := stripesOf_mem_length es.StripeSize.toNat k data hk s hsm
    exact shareOf_length_of_perm _ m c i (hscheme s hsl).1 (hscheme s hsl).2 hi),
    stripesOf_length]

theorem stripesOf_flatten (n : Nat) : ∀ (k : Nat) (data : List UInt8),
    k * n ≤ data.length → (stripesOf n data k).flatten = data.take (k * n) := by
  intro k
  induction k with
  | zero => intro data _; simp [stripesOf]
  | succ k ih =>
    intro data hk
    rw [Nat.add_mul, Nat.one_mul] at hk
    have h1 : k * n ≤ (data.drop n).length := by
      rw [List.length_drop]
      omega
    rw [stripesOf, List.flatten_cons, ih _ h1, Nat.add_mul, Nat.one_mul, Nat.add_comm (k * n) n,
      List.take_add]

/-- What a run of the callback that returned has done: every call addressed a lane of the
pipe, the pipe holds the bytes, and the error left in `writeErr` is nil or the error of a
write to a closed lane. -/
theorem emit_inv (emits : List (Int × List UInt8)) :
    ∀ (mp mp1 : MultiPipe) (w w1 : Option Error),
      emit mp w emits = some (mp1, w1) →
      (∀ p ∈ emits, 0 ≤ p.1 ∧ p.1 < mp.lanes.length) ∧
      mp1 = mp.deliver (fun i => shareOf emits i) ∧
      ((w = none ∨ w = some Error.ErrClosedPipe) →
        (w1 = none ∨ w1 = some Error.ErrClosedPipe)) := by
  induction emits with
  | nil =>
    intro mp mp1 w w1 h
    simp only [emit, Option.some.injEq, Prod.mk.injEq] at h
    refine ⟨fun p hp => by simp at hp, ?_, fun hw => ?_⟩
    · rw [← h.1]
      simp only [shareOf_nil]
      rw [MultiPipe.deliver_nil]
    · rw [← h.2]
      exact hw
  | cons q rest ih =>
    intro mp mp1 w w1 h
    obtain ⟨num, data⟩ := q
    by_cases hin : 0 ≤ num ∧ num < mp.lanes.length
    · have hlt : num.toNat < mp.lanes.length := by omega
      obtain ⟨l, hl⟩ : ∃ l, mp.lanes[num.toNat]? = some l :=
        ⟨mp.lanes[num.toNat], List.getElem?_eq_getElem hlt⟩
      simp only [emit, MultiPipe.Pipe_of_lt mp num hin.1 hin.2, PipeWriter.Write, hl] at h
      cases hw : l.Write mp.capacity data with
      | none => simp [hw] at h
      | some x =>
        obtain ⟨l1, e⟩ := x
        simp only [hw] at h
        obtain ⟨hput, he1, he2, _⟩ := Lane.Write_some l l1 mp.capacity data e hw
        subst hput
        obtain ⟨hr, hd, he⟩ := ih _ mp1 e w1 h
        refine ⟨?_, ?_, fun _ => ?_⟩
        · intro p hp
          rcases List.mem_cons.1 hp with h1 | h1
          · rw [h1]
            exact hin
          · simpa using hr p h1
        · rw [hd, MultiPipe.set_put mp num.toNat l data hl, MultiPipe.deliver_deliver]
          congr 1
          funext i
          exact (shareOf_cons_nat num data rest hin.1 i).symm
        · apply he
          by_cases hc : l.closes = []
          · exact Or.inl (he1 hc)
          · exact Or.inr (he2 hc)
    · simp [emit, MultiPipe.Pipe, hin] at h

theorem fillLoop_inv (ctx : Context) : ∀ (fuel : Nat) (er : encodedReader) (reads : Nat)
    (encoded : List (List UInt8)) (run : Run),
    fillLoop ctx fuel er reads encoded = some run →
    run.er.rs = er.rs ∧ ∃ f, run.er.pieceBuf = er.pieceBuf.deliver f := by
  intro fuel
  induction fuel with
  | zero => intro er reads encoded run h; simp [fillLoop] at h
  | succ fuel ih =>
    intro er reads encoded run h
    rw [fillLoop] at h
    by_cases hc : ctx reads = some Error.Canceled
    · simp only [hc, if_true, Option.some.injEq] at h
      subst h
      exact ⟨rfl, _, (MultiPipe.deliver_nil _).symm⟩
    · simp only [hc, if_false] at h
      by_cases hlen : er.inbuf.length ≤ er.r.data.length
      · simp only [ReadFull, hlen, if_true] at h
        cases hem : emit er.pieceBuf none (er.rs.Encode (er.r.data.take er.inbuf.length)).1 with
        | none => simp [hem] at h
        | some x =>
          obtain ⟨pb, w⟩ := x
          have hpb := (emit_inv _ _ _ _ _ hem).2.1
          simp only [hem] at h
          cases hcomb : CombineErrors (er.rs.Encode (er.r.data.take er.inbuf.length)).2 w with
          | some e =>
            simp only [hcomb, Option.some.injEq] at h
            subst h
            exact ⟨rfl, _, hpb⟩
          | none =>
            simp only [hcomb] at h
            obtain ⟨h1, f, h2⟩ := ih _ _ _ _ h
            refine ⟨h1, ?_⟩
            rw [h2]
            simp only [hpb, MultiPipe.deliver_deliver]
            exact ⟨_, rfl⟩
      · simp only [ReadFull, hlen, if_false, Option.some.injEq] at h
        subst h
        exact ⟨rfl, _, (MultiPipe.deliver_nil _).symm⟩

/-- The origin of an exit with `io.EOF`: an `Encode` that returned `io.EOF`, or a read that
found the source at its end. -/
theorem fillLoop_exit_EOF (ctx : Context) : ∀ (fuel : Nat) (er : encodedReader) (reads : Nat)
    (encoded : List (List UInt8)) (run : Run),
    fillLoop ctx fuel er reads encoded = some run →
    run.exit = Error.EOF →
    (∃ s ∈ run.encoded, (er.rs.Encode s).2 = some Error.EOF) ∨
    (run.er.r.data = [] ∧ run.er.r.term = Error.EOF ∧
      run.reads + encoded.length = reads + run.encoded.length + 1) := by
  intro fuel
  induction fuel with
  | zero => intro er reads encoded run h; simp [fillLoop] at h
  | succ fuel ih =>
    intro er reads encoded run h hexit
    rw [fillLoop] at h
    by_cases hc : ctx reads = some Error.Canceled
    · simp only [hc, if_true, Option.some.injEq] at h
      subst h
      simp at hexit
    · simp only [hc, if_false] at h
      by_cases hlen : er.inbuf.length ≤ er.r.data.length
      · simp only [ReadFull, hlen, if_true] at h
        cases hem : emit er.pieceBuf none (er.rs.Encode (er.r.data.take er.inbuf.length)).1 with
        | none => simp [hem] at h
        | some x =>
          obtain ⟨pb, w⟩ := x
          have hw := (emit_inv _ _ _ _ _ hem).2.2 (Or.inl rfl)
          simp only [hem] at h
          cases hcomb : CombineErrors (er.rs.Encode (er.r.data.take er.inbuf.length)).2 w with
          | some e =>
            simp only [hcomb, Option.some.injEq] at h
            subst h
            simp only at hexit
            subst hexit
            left
            refine ⟨er.r.data.take er.inbuf.length, by simp, ?_⟩
            cases henc : (er.rs.Encode (er.r.data.take er.inbuf.length)).2 with
            | some e1 =>
              rw [henc] at hcomb
              simpa [CombineErrors] using hcomb
            | none =>
              rw [henc] at hcomb
              simp only [CombineErrors] at hcomb
              rcases hw with h1 | h1 <;> rw [h1] at hcomb <;> simp at hcomb
          | none =>
            simp only [hcomb] at h
            rcases ih _ _ _ _ h hexit with h1 | ⟨h1, h2, h3⟩
            · exact Or.inl h1
            · right
              refine ⟨h1, h2, ?_⟩
              simp only [List.length_append, List.length_singleton] at h3
              omega
      · simp only [ReadFull, hlen, if_false, Option.some.injEq] at h
        subst h
        simp only at hexit
        right
        by_cases hd : er.r.data ≠ [] ∧ er.r.term = Error.EOF
        · simp [hd] at hexit
        · simp only [hd, if_false] at hexit
          refine ⟨rfl, hexit, ?_⟩
          show reads + 1 + encoded.length = reads + encoded.length + 1
          omega

theorem closeAll_lt (err : Option Error) : ∀ (idxs : List Nat) (mp mp1 : MultiPipe),
    closeAll err mp idxs = some mp1 → ∀ i ∈ idxs, i < mp.lanes.length := by
  intro idxs
  induction idxs with
  | nil => intro _ _ _ i hi; simp at hi
  | cons j rest ih =>
    intro mp mp1 h i hi
    by_cases hj : j < mp.lanes.length
    · rcases List.mem_cons.1 hi with h1 | h1
      · rw [h1]
        exact hj
      · obtain ⟨l, hl⟩ : ∃ l, mp.lanes[j]? = some l := ⟨mp.lanes[j], List.getElem?_eq_getElem hj⟩
        have hpipe := MultiPipe.Pipe_of_lt mp (j : Int) (by omega) (by exact_mod_cast hj)
        simp only [Int.toNat_ofNat] at hpipe
        simp only [closeAll, hpipe, PipeWriter.CloseWithError, hl] at h
        simpa using ih _ _ h i h1
    · simp [closeAll, MultiPipe.Pipe, hj] at h

/-- Every run of `fillBuffer` that completes closes each lane `0 .. TotalCount-1` exactly
once (one close call is added to those the lane had received), all with the same cause: no
error when the loop was left with `io.EOF`, and otherwise the error with which the loop was
left. The loop is left with `io.EOF` only when a read found the source at its end or when an
`Encode` returned `io.EOF`. -/
theorem fillBuffer_closes_lanes (er : encodedReader) (ctx : Context) (fuel : Nat) (run : Run)
    (h : er.fillBuffer fuel ctx = some run) :
    (∀ i : Nat, (i : Int) < er.rs.TotalCount →
      ∃ l0 l1, er.pieceBuf.lanes[i]? = some l0 ∧ run.er.pieceBuf.lanes[i]? = some l1 ∧
        l1.closes = l0.closes ++ [if run.exit = Error.EOF then none else some run.exit]) ∧
    (run.exit = Error.EOF →
      (∃ s ∈ run.encoded, (er.rs.Encode s).2 = some Error.EOF) ∨
      (run.er.r.data = [] ∧ run.er.r.term = Error.EOF ∧
        run.reads = run.encoded.length + 1)) := by
  unfold encodedReader.fillBuffer at h
  cases hloop : fillLoop ctx fuel er 0 [] with
  | none => simp [hloop] at h
  | some run0 =>
    simp only [hloop] at h
    obtain ⟨hrs, f, hpb⟩ := fillLoop_inv ctx fuel er 0 [] run0 hloop
    cases hclose : closeAll (closeCause run0.exit) run0.er.pieceBuf
        (List.range run0.er.rs.TotalCount.toNat) with
    | none => simp [hclose] at h
    | some pb =>
      simp only [hclose, Option.some.injEq] at h
      constructor
      · intro i hi
        have hin : i < run0.er.rs.TotalCount.toNat := by
          rw [hrs]
          omega
        have hlt := closeAll_lt _ _ _ _ hclose i (List.mem_range.2 hin)
        have hle : run0.er.rs.TotalCount.toNat ≤ run0.er.pieceBuf.lanes.length := by
          by_contra hcon
          have := closeAll_lt _ _ _ _ hclose run0.er.pieceBuf.lanes.length
            (List.mem_range.2 (by omega))
          omega
        rw [closeAll_range _ _ _ hle] at hclose
        simp only [Option.some.injEq] at hclose
        rw [hpb, MultiPipe.deliver_length] at hlt
        obtain ⟨l0, hl0⟩ : ∃ l, er.pieceBuf.lanes[i]? = some l :=
          ⟨er.pieceBuf.lanes[i], List.getElem?_eq_getElem hlt⟩
        refine ⟨l0, (l0.put (f i)).CloseWithError (closeCause run0.exit), hl0, ?_, ?_⟩
        · rw [← h]
          simp only []
          rw [← hclose, MultiPipe.closeBelow_getElem?, hpb, MultiPipe.deliver_getElem?, hl0]
          simp only [Option.map_some', hin, if_true]
        · simp only [Lane.CloseWithError, Lane.put_closes, closeCause, ← h]
      · intro hexit
        rw [← h] at hexit ⊢
        simp only at hexit ⊢
        rcases fillLoop_exit_EOF ctx fuel er 0 [] run0 hloop hexit with h1 | ⟨h1, h2, h3⟩
        · exact Or.inl h1
        · right
          simp only [List.length_nil, Nat.add_zero, Nat.zero_add] at h3
          exact ⟨h1, h2, h3⟩

theorem toyScheme_conforms (s : List UInt8) (hs : s.length = 4) :
    (toyStrategy.Encode s).2 = none ∧
    ((toyStrategy.Encode s).1.map Prod.fst).Perm
      ((List.range toyStrategy.TotalCount.toNat).map Int.ofNat) ∧
    ∀ p ∈ (toyStrategy.Encode s).1, (p.2.length : Int) = toyStrategy.ErasureShareSize := by
  match s, hs with
  | [a, b, c, d], _ =>
    refine ⟨rfl, List.Perm.refl _, ?_⟩
    intro p hp
    simp only [toyStrategy, toyScheme, List.mem_cons, List.mem_singleton, List.not_mem_nil,
      or_false] at hp
    rcases hp with h | h | h | h <;> subst h <;> rfl

theorem blocks_cover (off len c K : Nat) (hc : 0 < c) (hend : off + len ≤ K * c)
    (hcase : 0 < len ∨ c ∣ off) :
    off / c * c ≤ off ∧
    off / c + (if 0 < len then (off + len - 1) / c - off / c + 1 else 0) ≤ K ∧
    (off - off / c * c) + len ≤ (if 0 < len then (off + len - 1) / c - off / c + 1 else 0) * c := by
  have h1 : off / c * c ≤ off := Nat.div_mul_le_self off c
  refine ⟨h1, ?_⟩
  by_cases hl : 0 < len
  · simp only [hl, if_true]
    have hmono : off / c ≤ (off + len - 1) / c := Nat.div_le_div_right (by omega)
    have hlb : (off + len - 1) / c < K := (Nat.div_lt_iff_lt_mul hc).2 (by omega)
    have h2 : (off + len - 1) / c * c ≤ off + len - 1 := Nat.div_mul_le_self _ c
    have h3 : off + len - 1 < c * ((off + len - 1) / c + 1) := Nat.lt_mul_div_succ _ hc
    rw [Nat.mul_add, Nat.mul_one, Nat.mul_comm] at h3
    have h4 : ((off + len - 1) / c - off / c + 1) * c =
        (off + len - 1) / c * c - off / c * c + c := by
      rw [Nat.add_mul, Nat.one_mul, Nat.sub_mul]
    have h5 : off / c * c ≤ (off + len - 1) / c * c := Nat.mul_le_mul_right c hmono
    constructor
    · omega
    · rw [h4]
      omega
  · have hl0 : len = 0 := by omega
    subst hl0
    simp only [Nat.lt_irrefl, if_false, Nat.add_zero, Nat.zero_mul]
    rcases hcase with h | h
    · omega
    · have h6 : off / c * c = off := Nat.div_mul_cancel h
      constructor
      · have : off / c ≤ K := by
          rw [Nat.add_zero] at hend
          exact Nat.div_le_of_le_mul (by rw [Nat.mul_comm]; exact hend)
        exact this
      · omega

theorem Range_slice_core (er : EncodedRanger) (ctx : Context) (off len K nN cN : Nat)
    (hn : er.rs.StripeSize = (nN : Int)) (hnpos : 0 < nN)
    (hcv : er.rs.ErasureShareSize = (cN : Int)) (hcpos : 0 < cN)
    (hreq : er.rs.RequiredCount ≠ 0) (htot : 0 ≤ er.rs.TotalCount) (hmax : 0 ≤ er.maxSize)
    (hsize : er.rr.data.length = K * nN)
    (hscheme : ∀ s : List UInt8, s.length = nN →
      (er.rs.Encode s).2 = none ∧
      ((er.rs.Encode s).1.map Prod.fst).Perm
        ((List.range er.rs.TotalCount.toNat).map Int.ofNat) ∧
      ∀ p ∈ (er.rs.Encode s).1, p.2.length = cN)
    (hctx : ∀ j, ctx j ≠ some Error.Canceled)
    (hend : off + len ≤ K * cN)
    (hcase : 0 < len ∨ cN ∣ off)
    (hcap : ((K * cN : Nat) : Int) ≤ er.maxSize.tdiv er.rs.RequiredCount)
    (fuel : Nat) (hfuel : K < fuel) :
    er.Range fuel ctx (off : Int) (len : Int) = Outcome.ok
      ((List.range er.rs.TotalCount.toNat).map fun i =>
        { bytes := ((laneOf er.rs.toErasureScheme er.rr.data K i).drop off).take len,
          term := none }) := by
  obtain ⟨hfb, hK, hskip⟩ := blocks_cover off len cN K hcpos hend hcase
  generalize hbc : (if 0 < len then (off + len - 1) / cN - off / cN + 1 else 0) = bc at hK hskip
  have hn1 : er.rs.StripeSize.toNat = nN := by rw [hn]; exact Int.toNat_natCast nN
  have hcalc : CalcEncompassingBlocks (off : Int) (len : Int) er.rs.ErasureShareSize =
      some (((off / cN : Nat) : Int), (bc : Int)) := by
    rw [hcv, CalcEncompassingBlocks_natCast off len cN hcpos, hbc]
  have hbound : off / cN * nN + bc * nN ≤ er.rr.data.length := by
    rw [hsize, ← Nat.add_mul]
    exact Nat.mul_le_mul_right nN hK
  have hrange : er.rr.Range (((off / cN : Nat) : Int) * er.rs.StripeSize)
      ((bc : Int) * er.rs.StripeSize) =
      Outcome.ok { data := (er.rr.data.drop (off / cN * nN)).take (bc * nN),
                   term := Error.EOF } := by
    have hb : ¬ ((((off / cN : Nat) : Int) * (nN : Int) < 0) ∨ ((bc : Int) * (nN : Int) < 0) ∨
        (((off / cN : Nat) : Int) * (nN : Int) + (bc : Int) * (nN : Int) >
          ((er.rr.data.length : Nat) : Int))) := by
      have h1 : (0 : Int) ≤ ((off / cN * nN : Nat) : Int) := Int.ofNat_nonneg _
      have h2 : (0 : Int) ≤ ((bc * nN : Nat) : Int) := Int.ofNat_nonneg _
      have h3 : ((off / cN * nN + bc * nN : Nat) : Int) ≤ ((er.rr.data.length : Nat) : Int) :=
        Int.ofNat_le.2 hbound
      push_cast at h1 h2 h3
      omega
    have e1 : (((off / cN : Nat) : Int) * (nN : Int)).toNat = off / cN * nN := by
      rw [← Nat.cast_mul, Int.toNat_natCast]
    have e2 : ((bc : Int) * (nN : Int)).toNat = bc * nN := by
      rw [← Nat.cast_mul, Int.toNat_natCast]
    simp only [Ranger.Range, Ranger.Size, hn, hb, if_false, e1, e2]
  have hsublen : ((er.rr.data.drop (off / cN * nN)).take (bc * nN)).length = bc * nN := by
    rw [List.length_take, List.length_drop]
    omega
  have hER := EncodeReader_ok
    { data := (er.rr.data.drop (off / cN * nN)).take (bc * nN), term := Error.EOF }
    er.rs er.maxSize hmax hreq (by omega) htot
  have hshare : ∀ (i : Nat), i < er.rs.TotalCount.toNat → ∀ s : List UInt8, s.length = nN →
      (shareOf (er.rs.Encode s).1 i).length = cN := by
    intro i hi s hs
    exact shareOf_length_of_perm _ er.rs.TotalCount.toNat cN i (hscheme s hs).2.1
      (hscheme s hs).2.2 hi
  obtain ⟨run, hrun, _, _, _, _, hl⟩ := producer_short er.rs
    ((er.rr.data.drop (off / cN * nN)).take (bc * nN)) Error.EOF er.maxSize ctx _ _ bc hER
    (by rw [hn1, hsublen])
    (by rw [hn1, hsublen, Nat.add_mul, Nat.one_mul]; omega)
    (fun j _ => hctx j)
    (by
      intro s hsm
      rw [hn1] at hsm
      have hsl := stripesOf_mem_length nN bc _ (by rw [hsublen]) s hsm
      have h := hscheme s hsl
      refine ⟨h.1, fun p hp => ?_⟩
      have := mem_of_perm_range _ _ h.2.1 p hp
      omega)
    (by
      intro j hj
      have hjn : j < er.rs.TotalCount.toNat := by omega
      rw [laneOf_length er.rs.toErasureScheme _ bc _ cN j (by rw [hn1, hsublen])
        (fun s hs => ⟨(hscheme s (by rw [← hn1]; exact hs)).2.1,
          (hscheme s (by rw [← hn1]; exact hs)).2.2⟩) hjn]
      have h1 : bc * cN ≤ K * cN :=
        Nat.mul_le_mul_right cN (Nat.le_trans (Nat.le_add_left bc (off / cN)) hK)
      have h2 : ((bc * cN : Nat) : Int) ≤ ((K * cN : Nat) : Int) := Int.ofNat_le.2 h1
      exact Int.le_trans h2 hcap)
    fuel (Nat.lt_of_le_of_lt (Nat.le_trans (Nat.le_add_left bc (off / cN)) hK) hfuel)
  simp only [hsublen, hn1, ne_eq, not_true_eq_false, false_and, if_false] at hl
  have hskipN : ((off : Int) - ((off / cN : Nat) : Int) * er.rs.ErasureShareSize).toNat =
      off - off / cN * cN := by
    rw [hcv, ← Nat.cast_mul, Int.toNat_sub]
  have hfull : ∀ i : Nat, i < er.rs.TotalCount.toNat →
      laneOf er.rs.toErasureScheme ((er.rr.data.drop (off / cN * nN)).take (bc * nN)) bc i =
        ((laneOf er.rs.toErasureScheme er.rr.data K i).drop (off / cN * cN)).take (bc * cN) := by
    intro i hi
    have := laneOf_slice er.rs.toErasureScheme er.rr.data K (off / cN) bc cN (i : Int) hK
      (by
        intro s hsm
        rw [hn1] at hsm
        exact hshare i hi s (stripesOf_mem_length nN K _ (by rw [hsize]) s hsm))
    rw [hn1] at this
    exact this
  rw [EncodedRanger.Range, hcalc]
  simp only [hrange, hER, hrun]
  rw [trimReaders_eq run.er.pieceBuf _ _
    (fun i => laneOf er.rs.toErasureScheme
      ((er.rr.data.drop (off / cN * nN)).take (bc * nN)) bc i) (Int.ofNat_nonneg len)
    (List.range er.rs.TotalCount.toNat)
    (by
      intro i hi
      have hi1 := List.mem_range.1 hi
      rw [hl i (by omega)]
      rfl)
    (by
      intro i hi
      have hi1 := List.mem_range.1 hi
      beta_reduce
      rw [hskipN, hfull i hi1, List.length_take, List.length_drop]
      have hlen : (laneOf er.rs.toErasureScheme er.rr.data K i).length = K * cN := by
        unfold laneOf
        rw [flatMap_length_const _ cN _ (by
          intro s hsm
          rw [hn1] at hsm
          exact hshare i hi1 s (stripesOf_mem_length nN K _ (by rw [hsize]) s hsm)),
          stripesOf_length]
      rw [hlen]
      have h1 : (off / cN + bc) * cN ≤ K * cN := Nat.mul_le_mul_right cN hK
      rw [Nat.add_mul] at h1
      omega)]
  congr 1
  apply List.map_congr_left
  intro i hi
  have hi1 := List.mem_range.1 hi
  rw [hskipN, hfull i hi1, Int.toNat_natCast, slice_of_slice _ _ _ _ _ hskip]
  rw [show off / cN * cN + (off - off / cN * cN) = off by omega]

theorem NewEncodedRanger_inv (rr : Ranger) (rs : RedundancyStrategy) (maxSize : Int)
    (er : EncodedRanger) (h : NewEncodedRanger rr rs maxSize = Outcome.ok er) :
    rs.StripeSize ≠ 0 ∧ rr.Size.tmod rs.StripeSize = 0 ∧ 0 ≤ maxSize ∧
    er = { rr := rr, rs := rs, maxSize := maxSize } := by
  by_cases h0 : rs.StripeSize = 0
  · simp [NewEncodedRanger, h0] at h
  by_cases hm : rr.Size.tmod rs.StripeSize = 0
  · by_cases hmax : maxSize < 0
    · simp [NewEncodedRanger, h0, hm, checkMaxSize, hmax] at h
    · simp only [NewEncodedRanger, h0, if_false, hm, ne_eq, not_true_eq_false, checkMaxSize,
        hmax, Outcome.ok.injEq] at h
      exact ⟨h0, hm, by omega, h.symm⟩
  · simp [NewEncodedRanger, h0, hm] at h

theorem EncodeReader_toy (input : List UInt8) :
    EncodeReader { data := input, term := Error.EOF } toyStrategy 8 =
      Outcome.ok (toyReaders, toyProducer input) := rfl

/-- The lanes of `toyStrategy` at `maxSize = 8` have room for the shares of two stripes. -/
theorem toy_fits (input : List UInt8) (k : Nat) (hk : k ≤ 2)
    (hlen : k * 4 ≤ input.length) :
    ∀ j : Nat, (j : Int) < toyStrategy.TotalCount →
      ((laneOf toyStrategy.toErasureScheme input k j).length : Int) ≤
        (8 : Int).tdiv toyStrategy.RequiredCount := by
  intro j hj
  have hj4 : j < 4 := by
    have : toyStrategy.TotalCount = 4 := rfl
    omega
  have h := laneOf_length toyStrategy.toErasureScheme input k 4 2 j hlen
    (fun s hs => by
      have hc := toyScheme_conforms s hs
      refine ⟨hc.2.1, fun p hp => ?_⟩
      have := hc.2.2 p hp
      have h2 : toyStrategy.ErasureShareSize = 2 := rfl
      omega)
    hj4
  rw [h]
  have h4 : (8 : Int).tdiv toyStrategy.RequiredCount = 4 := by decide
  rw [h4]
  have : k * 2 ≤ 4 := by omega
  exact_mod_cast this

/-! ## The claims -/

/-- C1: for a producer started by `EncodeReader` over an input of `k` whole stripes, with
every `Encode` succeeding and addressing existing lanes only, every write finding room in
its lane (no lane is given more bytes than the lane capacity `maxSize / RequiredCount`) and
no cancellation before the stripes are read, the run completes and the bytes written to lane
`i` before its close are the shares of lane `i` of the consecutive stripes, concatenated in
stripe order. -/
theorem fillBuffer_lane_is_share_concat (rs : RedundancyStrategy) (input : List UInt8)
    (term : Error) (maxSize : Int) (ctx : Context) (readers : List PipeReader)
    (er : encodedReader) (k i : Nat)
    (hER : EncodeReader { data := input, term := term } rs maxSize = Outcome.ok (readers, er))
    (hstripe : 0 < rs.StripeSize)
    (hlen : input.length = k * rs.StripeSize.toNat)
    (hctx : ∀ j, j < k → ctx j ≠ some Error.Canceled)
    (hs : ∀ s ∈ stripesOf rs.StripeSize.toNat input k,
      (rs.Encode s).2 = none ∧ ∀ p ∈ (rs.Encode s).1, 0 ≤ p.1 ∧ p.1 < rs.TotalCount)
    (hfit : ∀ j : Nat, (j : Int) < rs.TotalCount →
      ((laneOf rs.toErasureScheme input k j).length : Int) ≤ maxSize.tdiv rs.RequiredCount)
    (hi : (i : Int) < rs.TotalCount) (fuel : Nat) (hfuel : k < fuel) :
    ∃ run cause, er.fillBuffer fuel ctx = some run ∧
      run.er.pieceBuf.lanes[i]? = some
        { buf := (stripesOf rs.StripeSize.toNat input k).flatMap fun s =>
            shareOf (rs.Encode s).1 i,
          closes := [cause] } := by
  by_cases hcan : ctx k = some Error.Canceled
  · obtain ⟨run, hrun, _, _, _, _, hl⟩ := producer_cancel rs input term maxSize ctx readers er k
      hER (by omega) hctx hcan hs hfit fuel hfuel
    exact ⟨run, _, hrun, hl i hi⟩
  · have hn : 0 < rs.StripeSize.toNat := by omega
    obtain ⟨run, hrun, _, _, _, _, hl⟩ := producer_short rs input term maxSize ctx readers er k
      hER (by omega) (by rw [Nat.add_mul, Nat.one_mul]; omega)
      (by
        intro j hj
        rcases Nat.lt_or_eq_of_le hj with h | h
        · exact hctx j h
        · rw [h]; exact hcan)
      hs hfit fuel hfuel
    exact ⟨run, _, hrun, hl i hi⟩

theorem fillBuffer_lane_is_share_concat_witness :
    ∃ run cause, (toyProducer abcdefgh).fillBuffer 3 background = some run ∧
      run.er.pieceBuf.lanes[2]? = some { buf := [2, 6, 2, 14], closes := [cause] } :=
  fillBuffer_lane_is_share_concat toyStrategy abcdefgh Error.EOF 8 background toyReaders
    (toyProducer abcdefgh) 2 2 (EncodeReader_toy abcdefgh) (by decide) (by decide)
    (fun _ _ => by simp [background]) (by decide)
    (toy_fits abcdefgh 2 (by decide) (by decide)) (by decide) 3 (by decide)

/-- C2: the ranged encoder over two stripes of the example scheme is built without error and
the range `(offset 1, length 0)` lies within its output size, yet `Range` returns the error
`Error.Wrap io.EOF` for it instead of four empty readers, while the aligned empty range
`(offset 2, length 0)` succeeds with four empty readers. -/
theorem Range_empty_unaligned :
    NewEncodedRanger { data := abcdefgh } toyStrategy 8 = Outcome.ok toyRanger ∧
    (0 : Int) ≤ 1 ∧ (0 : Int) ≤ 0 ∧ (1 : Int) + 0 ≤ toyRanger.OutputSize ∧
    toyRanger.Range 4 background 1 0 = Outcome.error (Error.Wrap Error.EOF) ∧
    toyRanger.Range 4 background 2 0 =
      Outcome.ok (List.replicate 4 { bytes := [], term := none }) := by
  refine ⟨rfl, by decide, by decide, by decide, by decide, by decide⟩

/-- Ranges that are not both empty and unaligned. For a ranged encoder built by
`NewEncodedRanger` over a scheme that keeps its contract (positive sizes, `Encode` succeeding
and emitting each share once with `ErasureShareSize` bytes), with a lane capacity
`maxSize / RequiredCount` that holds a whole lane of the output, without cancellation, and
for a range within the output size with `0 < length` or `offset` a multiple of the share
size, `Range` succeeds with `TotalCount` readers; the reader of lane `i` delivers exactly `length`
bytes and a clean end-of-stream, and they are the bytes `[offset, offset + length)` that the
producer writes to lane `i` for the whole source. -/
theorem Range_slice (rr : Ranger) (rs : RedundancyStrategy) (maxSize : Int)
    (er : EncodedRanger) (ctx : Context) (offset length : Int)
    (hnew : NewEncodedRanger rr rs maxSize = Outcome.ok er)
    (hstripe : 0 < rs.StripeSize) (hshare : 0 < rs.ErasureShareSize)
    (hreq : 1 ≤ rs.RequiredCount) (htot : 0 ≤ rs.TotalCount)
    (hscheme : ∀ s : List UInt8, s.length = rs.StripeSize.toNat →
      (rs.Encode s).2 = none ∧
      ((rs.Encode s).1.map Prod.fst).Perm ((List.range rs.TotalCount.toNat).map Int.ofNat) ∧
      ∀ p ∈ (rs.Encode s).1, (p.2.length : Int) = rs.ErasureShareSize)
    (hctx : ∀ j, ctx j ≠ some Error.Canceled)
    (hoff : 0 ≤ offset) (hlen : 0 ≤ length) (hend : offset + length ≤ er.OutputSize)
    (hcase : 0 < length ∨ rs.ErasureShareSize ∣ offset)
    (hcap : er.OutputSize ≤ maxSize.tdiv rs.RequiredCount)
    (fuel : Nat) (hfuel : rr.data.length < fuel) :
    ∃ streams readers enc run,
      er.Range fuel ctx offset length = Outcome.ok streams ∧
      EncodeReader { data := rr.data, term := Error.EOF } rs maxSize =
        Outcome.ok (readers, enc) ∧
      enc.fillBuffer fuel ctx = some run ∧
      (streams.length : Int) = rs.TotalCount ∧
      ∀ i : Nat, (i : Int) < rs.TotalCount →
        ∃ l, run.er.pieceBuf.lanes[i]? = some l ∧ l.closes = [none] ∧
          streams[i]? = some
            { bytes := (l.buf.drop offset.toNat).take length.toNat, term := none } ∧
          (((l.buf.drop offset.toNat).take length.toNat).length : Int) = length := by
  obtain ⟨h0, hmod, hmax, her⟩ := NewEncodedRanger_inv rr rs maxSize er hnew
  subst her
  obtain ⟨off, rfl⟩ := Int.eq_ofNat_of_zero_le hoff
  obtain ⟨len, rfl⟩ := Int.eq_ofNat_of_zero_le hlen
  obtain ⟨nN, hn⟩ := Int.eq_ofNat_of_zero_le (Int.le_of_lt hstripe)
  obtain ⟨cN, hc⟩ := Int.eq_ofNat_of_zero_le (Int.le_of_lt hshare)
  have hnpos : 0 < nN := by omega
  have hcpos : 0 < cN := by omega
  have hn1 : rs.StripeSize.toNat = nN := by rw [hn]; exact Int.toNat_natCast nN
  have hdvd : nN ∣ rr.data.length := by
    have := Int.dvd_of_tmod_eq_zero hmod
    rw [hn, Ranger.Size] at this
    exact Int.natCast_dvd_natCast.1 this
  have hsize : rr.data.length = rr.data.length / nN * nN := (Nat.div_mul_cancel hdvd).symm
  have hK : rr.data.length / nN < fuel := Nat.lt_of_le_of_lt (Nat.div_le_self _ _) hfuel
  have hout : ({ rr := rr, rs := rs, maxSize := maxSize } : EncodedRanger).OutputSize =
      ((rr.data.length / nN * cN : Nat) : Int) := by
    simp only [EncodedRanger.OutputSize, Ranger.Size, hn, hc]
    rw [Int.tdiv_eq_ediv (Int.ofNat_nonneg _) (Int.ofNat_nonneg _), ← Int.natCast_div,
      ← Nat.cast_mul]
  rw [hout] at hend hcap
  have hend1 : off + len ≤ rr.data.length / nN * cN := by exact_mod_cast hend
  have hscheme1 : ∀ s : List UInt8, s.length = nN →
      (rs.Encode s).2 = none ∧
      ((rs.Encode s).1.map Prod.fst).Perm ((List.range rs.TotalCount.toNat).map Int.ofNat) ∧
      ∀ p ∈ (rs.Encode s).1, p.2.length = cN := by
    intro s hs
    have h := hscheme s (by rw [hn1]; exact hs)
    refine ⟨h.1, h.2.1, fun p hp => ?_⟩
    have := h.2.2 p hp
    omega
  have hcase1 : 0 < len ∨ cN ∣ off := by
    rcases hcase with h | h
    · left; omega
    · right
      rw [hc] at h
      exact Int.natCast_dvd_natCast.1 h
  have hmain := Range_slice_core { rr := rr, rs := rs, maxSize := maxSize } ctx off len
    (rr.data.length / nN) nN cN hn hnpos hc hcpos (by show rs.RequiredCount ≠ 0; omega) htot
    hmax hsize hscheme1 hctx
    hend1 hcase1 hcap fuel hK
  have hER := EncodeReader_ok { data := rr.data, term := Error.EOF } rs maxSize hmax
    (by omega) (by omega) htot
  obtain ⟨run, hrun, _, _, _, _, hl⟩ := producer_short rs rr.data Error.EOF maxSize ctx _ _
    (rr.data.length / nN) hER (by rw [hn1]; omega)
    (by rw [hn1, Nat.add_mul, Nat.one_mul]; omega) (fun j _ => hctx j)
    (by
      intro s hsm
      rw [hn1] at hsm
      have hsl := stripesOf_mem_length nN _ _ (by omega) s hsm
      have h := hscheme1 s hsl
      refine ⟨h.1, fun p hp => ?_⟩
      have := mem_of_perm_range _ _ h.2.1 p hp
      omega)
    (by
      intro j hj
      have hjn : j < rs.TotalCount.toNat := by omega
      rw [laneOf_length rs.toErasureScheme rr.data _ _ cN j (by rw [hn1]; omega)
        (fun s hs => ⟨(hscheme1 s (by rw [← hn1]; exact hs)).2.1,
          (hscheme1 s (by rw [← hn1]; exact hs)).2.2⟩) hjn]
      exact hcap)
    fuel hK
  have hne : ¬ (rr.data.length ≠ rr.data.length / nN * rs.StripeSize.toNat) := by
    rw [hn1]
    omega
  simp only [hne, false_and, if_false, closeCause, if_true] at hl
  refine ⟨_, _, _, run, hmain, hER, hrun, ?_, fun i hi => ?_⟩
  · simp only [List.length_map, List.length_range]
    omega
  · have hin : i < rs.TotalCount.toNat := by omega
    refine ⟨_, hl i hi, rfl, ?_, ?_⟩
    · rw [List.getElem?_map, List.getElem?_range hin]
      simp only [Option.map_some', Int.toNat_natCast]
    · have hfl : (laneOf rs.toErasureScheme rr.data (rr.data.length / nN) i).length =
          rr.data.length / nN * cN := by
        unfold laneOf
        rw [flatMap_length_const _ cN _ (by
          intro s hsm
          rw [hn1] at hsm
          have hsl := stripesOf_mem_length nN _ _ (by omega) s hsm
          exact shareOf_length_of_perm _ rs.TotalCount.toNat cN i (hscheme1 s hsl).2.1
            (hscheme1 s hsl).2.2 hin), stripesOf_length]
      simp only [Int.toNat_natCast, List.length_take, List.length_drop, hfl]
      omega

theorem Range_slice_witness :
    ∃ streams readers enc run,
      toyRanger.Range 9 background 1 3 = Outcome.ok streams ∧
      EncodeReader { data := abcdefgh, term := Error.EOF } toyStrategy 8 =
        Outcome.ok (readers, enc) ∧
      enc.fillBuffer 9 background = some run ∧
      (streams.length : Int) = 4 ∧
      ∀ i : Nat, (i : Int) < 4 →
        ∃ l, run.er.pieceBuf.lanes[i]? = some l ∧ l.closes = [none] ∧
          streams[i]? = some { bytes := (l.buf.drop 1).take 3, term := none } ∧
          (((l.buf.drop 1).take 3).length : Int) = 3 :=
  Range_slice { data := abcdefgh } toyStrategy 8 toyRanger background 1 3 rfl (by decide)
    (by decide) (by decide) (by decide) toyScheme_conforms (fun _ => by simp [background])
    (by decide) (by decide) (by decide) (Or.inl (by decide)) (by decide) 9 (by decide)

/-- C3: for a scheme with `1 ≤ RequiredCount ≤ TotalCount` and all integers `r`, `o`,
`NewRedundancyStrategy` succeeds exactly when, a zero threshold being replaced by
`TotalCount`, `RequiredCount ≤ r ≤ o ≤ TotalCount`; in every other case, among them a
negative threshold, a positive threshold below `RequiredCount`, a threshold above
`TotalCount` and `repair > optimal`, it returns an error and no strategy. -/
theorem NewRedundancyStrategy_ok_iff (es : ErasureScheme) (r o : Int)
    (hreq : 1 ≤ es.RequiredCount) (htot : es.RequiredCount ≤ es.TotalCount) :
    ((∃ rs, NewRedundancyStrategy es r o = Outcome.ok rs) ↔
      (es.RequiredCount ≤ (if r = 0 then es.TotalCount else r) ∧
        (if r = 0 then es.TotalCount else r) ≤ (if o = 0 then es.TotalCount else o) ∧
        (if o = 0 then es.TotalCount else o) ≤ es.TotalCount)) ∧
    (¬ (es.RequiredCount ≤ (if r = 0 then es.TotalCount else r) ∧
        (if r = 0 then es.TotalCount else r) ≤ (if o = 0 then es.TotalCount else o) ∧
        (if o = 0 then es.TotalCount else o) ≤ es.TotalCount) →
      ∃ e, NewRedundancyStrategy es r o = Outcome.error e) ∧
    ((r < 0 ∨ o < 0 ∨ (0 < r ∧ r < es.RequiredCount) ∨ (0 < o ∧ o < es.RequiredCount) ∨
        es.TotalCount < r ∨ es.TotalCount < o ∨
        (if o = 0 then es.TotalCount else o) < (if r = 0 then es.TotalCount else r)) →
      ∃ e, NewRedundancyStrategy es r o = Outcome.error e) := by
  rcases NewRedundancyStrategy_cases es r o _ _ rfl rfl with ⟨hc, hok⟩ | ⟨hc, e, herr⟩
  · refine ⟨⟨fun _ => ?_, fun _ => ⟨_, hok⟩⟩, fun h => absurd ?_ h, fun h => ?_⟩
    · split_ifs at hc ⊢ <;> omega
    · split_ifs at hc ⊢ <;> omega
    · exfalso
      split_ifs at hc h <;> omega
  · refine ⟨⟨fun h => ?_, fun h => absurd ?_ hc⟩, fun _ => ⟨e, herr⟩, fun _ => ⟨e, herr⟩⟩
    · obtain ⟨rs, hrs⟩ := h
      rw [herr] at hrs
      cases hrs
    · split_ifs at h ⊢ <;> omega

theorem NewRedundancyStrategy_ok_iff_witness :
    (∃ rs, NewRedundancyStrategy toyScheme 2 0 = Outcome.ok rs) ∧
    (∃ e, NewRedundancyStrategy toyScheme 1 0 = Outcome.error e) ∧
    (∃ e, NewRedundancyStrategy toyScheme 3 2 = Outcome.error e) :=
  ⟨(NewRedundancyStrategy_ok_iff toyScheme 2 0 (by decide) (by decide)).1.2 (by decide),
   (NewRedundancyStrategy_ok_iff toyScheme 1 0 (by decide) (by decide)).2.1 (by decide),
   (NewRedundancyStrategy_ok_iff toyScheme 3 2 (by decide) (by decide)).2.2 (by decide)⟩

/-- C4 as amended: for an input of `k ≥ 1` whole stripes ending in end-of-stream, a context
that is not cancelled, a scheme whose `Encode` succeeds and emits each of the `TotalCount`
shares once with `ErasureShareSize` bytes, and a `maxSize` whose lane capacity
`maxSize / RequiredCount` is at least `(len(input) / StripeSize) * ErasureShareSize`, the
producer started by `EncodeReader` completes, and the reader of every lane delivers
`(len(input) / StripeSize) * ErasureShareSize` bytes and then a clean end-of-stream. -/
theorem EncodeReader_lane_length (rs : RedundancyStrategy) (input : List UInt8)
    (maxSize : Int) (ctx : Context) (readers : List PipeReader) (er : encodedReader) (k i : Nat)
    (hER : EncodeReader { data := input, term := Error.EOF } rs maxSize =
      Outcome.ok (readers, er))
    (hstripe : 0 < rs.StripeSize)
    (hk : 0 < k)
    (hlen : input.length = k * rs.StripeSize.toNat)
    (hscheme : ∀ s : List UInt8, s.length = rs.StripeSize.toNat →
      (rs.Encode s).2 = none ∧
      ((rs.Encode s).1.map Prod.fst).Perm ((List.range rs.TotalCount.toNat).map Int.ofNat) ∧
      ∀ p ∈ (rs.Encode s).1, (p.2.length : Int) = rs.ErasureShareSize)
    (hcap : (input.length : Int).tdiv rs.StripeSize * rs.ErasureShareSize ≤
      maxSize.tdiv rs.RequiredCount)
    (hctx : ∀ j, ctx j ≠ some Error.Canceled)
    (hi : (i : Int) < rs.TotalCount) (fuel : Nat) (hfuel : k < fuel) :
    ∃ run rd s, er.fillBuffer fuel ctx = some run ∧
      readers[i]? = some rd ∧ rd.lane = i ∧
      rd.stream run.er.pieceBuf = some s ∧
      (s.bytes.length : Int) = (input.length : Int).tdiv rs.StripeSize * rs.ErasureShareSize ∧
      s.term = none := by
  obtain ⟨_, _, _, htot, hrd, _⟩ := EncodeReader_inv _ _ _ _ _ hER
  have hn : 0 < rs.StripeSize.toNat := by omega
  have hin : i < rs.TotalCount.toNat := by omega
  have hmemlen := stripesOf_mem_length rs.StripeSize.toNat k input (by omega)
  obtain ⟨k0, rfl⟩ : ∃ k0, k = k0 + 1 := ⟨k - 1, by omega⟩
  have hs0 : input.take rs.StripeSize.toNat ∈ stripesOf rs.StripeSize.toNat input (k0 + 1) := by
    simp [stripesOf]
  have hc0 := (hscheme _ (hmemlen _ hs0)).2.2
  have hperm0 := (hscheme _ (hmemlen _ hs0)).2.1
  obtain ⟨c, hc⟩ : ∃ c : Nat, (c : Int) = rs.ErasureShareSize := by
    have hne : (rs.Encode (input.take rs.StripeSize.toNat)).1 ≠ [] := by
      intro hnil
      rw [hnil] at hperm0
      have := hperm0.length_eq
      simp at this
      omega
    obtain ⟨p, hp⟩ := List.exists_mem_of_ne_nil _ hne
    exact ⟨_, hc0 p hp⟩
  have hscheme1 : ∀ s : List UInt8, s.length = rs.StripeSize.toNat →
      ((rs.Encode s).1.map Prod.fst).Perm ((List.range rs.TotalCount.toNat).map Int.ofNat) ∧
      ∀ p ∈ (rs.Encode s).1, p.2.length = c := by
    intro s hsl
    refine ⟨(hscheme s hsl).2.1, fun p hp => ?_⟩
    have := (hscheme s hsl).2.2 p hp
    omega
  have hlane : ∀ j : Nat, j < rs.TotalCount.toNat →
      (laneOf rs.toErasureScheme input (k0 + 1) j).length = (k0 + 1) * c := fun j hj =>
    laneOf_length rs.toErasureScheme input (k0 + 1) _ c j (by omega) hscheme1 hj
  have hsz : ((rs.StripeSize.toNat : Nat) : Int) = rs.StripeSize := by omega
  have hdiv : (input.length : Int).tdiv rs.StripeSize = ((k0 + 1 : Nat) : Int) := by
    rw [hlen]
    push_cast
    rw [hsz, Int.mul_tdiv_cancel _ (by omega)]
  rw [hdiv, ← hc] at hcap ⊢
  obtain ⟨run, hrun, _, _, _, _, hl⟩ := producer_short rs input Error.EOF maxSize ctx readers er
    (k0 + 1) hER (by omega) (by rw [Nat.add_mul (k0 + 1), Nat.one_mul]; omega)
    (fun j _ => hctx j)
    (by
      intro s hsm
      have h := hscheme s (hmemlen s hsm)
      refine ⟨h.1, fun p hp => ?_⟩
      have := mem_of_perm_range _ _ h.2.1 p hp
      omega)
    (by
      intro j hj
      rw [hlane j (by omega)]
      exact_mod_cast hcap)
    fuel hfuel
  have hlane_i := hl i hi
  simp only [hlen, ne_eq, not_true_eq_false, false_and, if_false] at hlane_i
  refine ⟨run, { lane := i },
    { bytes := laneOf rs.toErasureScheme input (k0 + 1) i, term := none }, hrun, ?_, rfl, ?_, ?_,
    rfl⟩
  · rw [hrd, List.getElem?_map, List.getElem?_range hin]
    rfl
  · simp only [PipeReader.stream, hlane_i, closeCause, if_true]
  · simp only [hlane i hin]
    push_cast
    rfl

theorem EncodeReader_lane_length_witness :
    ∃ run rd s, (toyProducer abcdefgh).fillBuffer 3 background = some run ∧
      toyReaders[3]? = some rd ∧ rd.lane = 3 ∧
      rd.stream run.er.pieceBuf = some s ∧
      (s.bytes.length : Int) = 4 ∧ s.term = none :=
  EncodeReader_lane_length toyStrategy abcdefgh 8 background toyReaders
    (toyProducer abcdefgh) 2 3 (EncodeReader_toy abcdefgh) (by decide) (by decide) (by decide)
    toyScheme_conforms (by decide) (fun _ => by simp [background]) (by decide) 3 (by decide)

/-- C4 as stated fails: with `maxSize = 0` the lanes have capacity `0`; on the two-stripe input
"ABCDEFGH" and the example scheme, which emits each of its four shares once with two bytes,
the first write is suspended for ever, the producer completes for no fuel, and no lane ever
delivers `(8 / 4) * 2` bytes followed by a clean end-of-stream. -/
theorem EncodeReader_lane_length_needs_capacity :
    EncodeReader { data := abcdefgh, term := Error.EOF } toyStrategy 0 =
      Outcome.ok (toyReaders, toyProducerAt 0 abcdefgh) ∧
    abcdefgh.length = 2 * toyStrategy.StripeSize.toNat ∧
    (∀ fuel, (toyProducerAt 0 abcdefgh).fillBuffer fuel background = none) ∧
    ¬ ∃ fuel run rd s, (toyProducerAt 0 abcdefgh).fillBuffer fuel background = some run ∧
        toyReaders[0]? = some rd ∧ rd.stream run.er.pieceBuf = some s ∧
        (s.bytes.length : Int) =
          (abcdefgh.length : Int).tdiv toyStrategy.StripeSize * toyStrategy.ErasureShareSize ∧
        s.term = none := by
  have hnone : ∀ fuel, (toyProducerAt 0 abcdefgh).fillBuffer fuel background = none := by
    intro fuel
    cases fuel with
    | zero => rfl
    | succ n => rfl
  refine ⟨rfl, by decide, hnone, ?_⟩
  rintro ⟨fuel, run, _, _, hrun, _⟩
  rw [hnone fuel] at hrun
  cases hrun

/-- C5: with a scheme whose `Encode` returns `io.EOF` on the first stripe of "ABCDEFGH", the
loop of `fillBuffer` ends on that error after one read, with four bytes of the input unread,
and every lane is closed with no error, although the input has not reached its end; with a
scheme whose `Encode` returns another error, every lane is closed with that error. -/
theorem fillBuffer_scheme_EOF_closes_clean :
    (EncodeReader { data := abcdefgh, term := Error.EOF } (failingStrategy Error.EOF) 8 =
      Outcome.ok (toyReaders, failingProducer Error.EOF abcdefgh)) ∧
    ((failingStrategy Error.EOF).Encode [65, 66, 67, 68] = ([], some Error.EOF)) ∧
    (((failingProducer Error.EOF abcdefgh).fillBuffer 9 background).map Run.observed = some
      (1, [[65, 66, 67, 68]], Error.EOF,
        { lanes := List.replicate 4 { buf := [], closes := [none] }, capacity := 4 },
        { data := [69, 70, 71, 72], term := Error.EOF })) ∧
    (((failingProducer (Error.other 1) abcdefgh).fillBuffer 9 background).map Run.observed =
      some
      (1, [[65, 66, 67, 68]], Error.other 1,
        { lanes := List.replicate 4 { buf := [], closes := [some (Error.other 1)] },
          capacity := 4 },
        { data := [69, 70, 71, 72], term := Error.EOF })) := by
  refine ⟨rfl, rfl, by decide, by decide⟩

/-- C6 as amended: for an input of `k` whole stripes followed by `t` bytes,
`0 < t < StripeSize` (`Encode` succeeding on the stripes, no cancellation), when the shares
of the `k` stripes fit the lane capacity `maxSize / RequiredCount`, the producer started by
`EncodeReader` passes exactly the first `k` stripes to `Encode` (their bytes are the first
`k * StripeSize` bytes of the input, the tail is never encoded), leaves the loop with
`io.ErrUnexpectedEOF`, and closes every lane with that error after the shares of the `k`
stripes. -/
theorem fillBuffer_short_tail (rs : RedundancyStrategy) (input : List UInt8)
    (maxSize : Int) (ctx : Context) (readers : List PipeReader) (er : encodedReader) (k t : Nat)
    (hER : EncodeReader { data := input, term := Error.EOF } rs maxSize =
      Outcome.ok (readers, er))
    (ht0 : 0 < t) (ht : (t : Int) < rs.StripeSize)
    (hlen : input.length = k * rs.StripeSize.toNat + t)
    (hctx : ∀ j, j ≤ k → ctx j ≠ some Error.Canceled)
    (hs : ∀ s ∈ stripesOf rs.StripeSize.toNat input k,
      (rs.Encode s).2 = none ∧ ∀ p ∈ (rs.Encode s).1, 0 ≤ p.1 ∧ p.1 < rs.TotalCount)
    (hfit : ∀ j : Nat, (j : Int) < rs.TotalCount →
      ((laneOf rs.toErasureScheme input k j).length : Int) ≤ maxSize.tdiv rs.RequiredCount)
    (fuel : Nat) (hfuel : k < fuel) :
    ∃ run, er.fillBuffer fuel ctx = some run ∧
      run.encoded = stripesOf rs.StripeSize.toNat input k ∧
      run.encoded.length = k ∧
      run.encoded.flatten = input.take (k * rs.StripeSize.toNat) ∧
      run.exit = Error.ErrUnexpectedEOF ∧
      ∀ i : Nat, (i : Int) < rs.TotalCount →
        run.er.pieceBuf.lanes[i]? = some
          { buf := (stripesOf rs.StripeSize.toNat input k).flatMap fun s =>
              shareOf (rs.Encode s).1 i,
            closes := [some Error.ErrUnexpectedEOF] } := by
  have htn : t < rs.StripeSize.toNat := by omega
  obtain ⟨run, hrun, _, henc, hexit, _, hl⟩ := producer_short rs input Error.EOF maxSize ctx
    readers er k hER (by omega) (by rw [Nat.add_mul, Nat.one_mul]; omega) hctx hs hfit fuel
    hfuel
  have hne : input.length ≠ k * rs.StripeSize.toNat := by omega
  simp only [hne, ne_eq, not_false_eq_true, true_and, if_true] at hexit hl
  refine ⟨run, hrun, henc, ?_, ?_, hexit, fun i hi => ?_⟩
  · rw [henc, stripesOf_length]
  · rw [henc, stripesOf_flatten _ _ _ (by omega)]
  · rw [hl i hi]
    rfl

theorem fillBuffer_short_tail_witness :
    (∃ run, (toyProducer [65, 66, 67]).fillBuffer 1 background = some run ∧
      run.encoded = [] ∧
      run.encoded.length = 0 ∧
      run.encoded.flatten = [] ∧
      run.exit = Error.ErrUnexpectedEOF ∧
      ∀ i : Nat, (i : Int) < 4 →
        run.er.pieceBuf.lanes[i]? = some
          { buf := [], closes := [some Error.ErrUnexpectedEOF] }) ∧
    (∃ run, (toyProducer abcde).fillBuffer 2 background = some run ∧
      run.encoded = [[65, 66, 67, 68]] ∧
      run.encoded.length = 1 ∧
      run.encoded.flatten = [65, 66, 67, 68] ∧
      run.exit = Error.ErrUnexpectedEOF ∧
      ∀ i : Nat, (i : Int) < 4 →
        run.er.pieceBuf.lanes[i]? = some
          { buf := (stripesOf 4 abcde 1).flatMap fun s => shareOf (toyStrategy.Encode s).1 i,
            closes := [some Error.ErrUnexpectedEOF] }) :=
  ⟨fillBuffer_short_tail toyStrategy [65, 66, 67] 8 background toyReaders
    (toyProducer [65, 66, 67]) 0 3 (EncodeReader_toy [65, 66, 67]) (by decide) (by decide)
    (by decide) (fun _ _ => by simp [background]) (by decide)
    (toy_fits [65, 66, 67] 0 (by decide) (by decide)) 1 (by decide),
   fillBuffer_short_tail toyStrategy abcde 8 background toyReaders
    (toyProducer abcde) 1 1 (EncodeReader_toy abcde) (by decide) (by decide)
    (by decide) (fun _ _ => by simp [background]) (by decide)
    (toy_fits abcde 1 (by decide) (by decide)) 2 (by decide)⟩

/-- C6 as stated fails: with `maxSize = 0` the lanes have capacity `0`; on the input "ABCDE"
(one stripe and a tail of one byte) the write of the first share is suspended for ever, so
the producer completes for no fuel and never closes a lane with `io.ErrUnexpectedEOF`. -/
theorem fillBuffer_short_tail_needs_capacity :
    EncodeReader { data := abcde, term := Error.EOF } toyStrategy 0 =
      Outcome.ok (toyReaders, toyProducerAt 0 abcde) ∧
    abcde.length = 1 * toyStrategy.StripeSize.toNat + 1 ∧
    (∀ fuel, (toyProducerAt 0 abcde).fillBuffer fuel background = none) ∧
    ¬ ∃ fuel run, (toyProducerAt 0 abcde).fillBuffer fuel background = some run ∧
        run.exit = Error.ErrUnexpectedEOF := by
  have hnone : ∀ fuel, (toyProducerAt 0 abcde).fillBuffer fuel background = none := by
    intro fuel
    cases fuel with
    | zero => rfl
    | succ n => rfl
  refine ⟨rfl, by decide, hnone, ?_⟩
  rintro ⟨fuel, run, hrun, _⟩
  rw [hnone fuel] at hrun
  cases hrun

/-- C7: when the context reports `Canceled` at the check before the read of stripe `k`
(`k ≥ 1`) and not at the earlier checks, and the producer started by `EncodeReader` gets
there (the first `k - 1` stripes are read, encoded without error and written, each lane
having room for their shares), it makes `k - 1` reads and no more, leaves the source at the
byte after stripe `k - 1`, and closes every lane with `Canceled` after the shares of the
first `k - 1` stripes; for `k = 1` a lane carries no byte. -/
theorem fillBuffer_cancelled (rs : RedundancyStrategy) (input : List UInt8) (term : Error)
    (maxSize : Int) (ctx : Context) (readers : List PipeReader) (er : encodedReader) (k : Nat)
    (hER : EncodeReader { data := input, term := term } rs maxSize = Outcome.ok (readers, er))
    (hk : 1 ≤ k)
    (hcan : ctx (k - 1) = some Error.Canceled)
    (hctx : ∀ j, j < k - 1 → ctx j ≠ some Error.Canceled)
    (hlen : (k - 1) * rs.StripeSize.toNat ≤ input.length)
    (hs : ∀ s ∈ stripesOf rs.StripeSize.toNat input (k - 1),
      (rs.Encode s).2 = none ∧ ∀ p ∈ (rs.Encode s).1, 0 ≤ p.1 ∧ p.1 < rs.TotalCount)
    (hfit : ∀ j : Nat, (j : Int) < rs.TotalCount →
      ((laneOf rs.toErasureScheme input (k - 1) j).length : Int) ≤
        maxSize.tdiv rs.RequiredCount)
    (fuel : Nat) (hfuel : k ≤ fuel) :
    ∃ run, er.fillBuffer fuel ctx = some run ∧
      run.reads = k - 1 ∧
      run.er.r.data = input.drop ((k - 1) * rs.StripeSize.toNat) ∧
      run.exit = Error.Canceled ∧
      ∀ i : Nat, (i : Int) < rs.TotalCount →
        run.er.pieceBuf.lanes[i]? = some
          { buf := (stripesOf rs.StripeSize.toNat input (k - 1)).flatMap fun s =>
              shareOf (rs.Encode s).1 i,
            closes := [some Error.Canceled] } ∧
        (k = 1 → run.er.pieceBuf.lanes[i]? = some
          { buf := [], closes := [some Error.Canceled] }) := by
  obtain ⟨run, hrun, hreads, _, hexit, hr, hl⟩ := producer_cancel rs input term maxSize ctx
    readers er (k - 1) hER hlen hctx hcan hs hfit fuel (by omega)
  refine ⟨run, hrun, hreads, by rw [hr], hexit, fun i hi => ⟨?_, fun h1 => ?_⟩⟩
  · rw [hl i hi]
    rfl
  · rw [hl i hi]
    subst h1
    rfl

theorem fillBuffer_cancelled_witness :
    ∃ run, (toyProducer abcdefgh).fillBuffer 2 cancelAtSecond = some run ∧
      run.reads = 1 ∧
      run.er.r.data = [69, 70, 71, 72] ∧
      run.exit = Error.Canceled ∧
      ∀ i : Nat, (i : Int) < 4 →
        run.er.pieceBuf.lanes[i]? = some
          { buf := (stripesOf 4 abcdefgh 1).flatMap fun s => shareOf (toyStrategy.Encode s).1 i,
            closes := [some Error.Canceled] } ∧
        ((2 : Nat) = 1 → run.er.pieceBuf.lanes[i]? = some
          { buf := [], closes := [some Error.Canceled] }) :=
  fillBuffer_cancelled toyStrategy abcdefgh Error.EOF 8 cancelAtSecond toyReaders
    (toyProducer abcdefgh) 2 (EncodeReader_toy abcdefgh) (by decide) (by decide)
    (fun j hj => by
      have h0 : j = 0 := by omega
      subst h0
      decide)
    (by decide) (by decide) (toy_fits abcdefgh 1 (by decide) (by decide)) 2 (by decide)

/-- C8: with a required count of at least one (and sizes and counts that are not negative),
`EncodeReader` returns an error, and no readers, for every negative `maxSize`; for every
other `maxSize` it returns `TotalCount` readers and no error, the reader at index `i` being
the read end of lane `i` of the pipe of the producer. -/
theorem EncodeReader_readers (r : Reader) (rs : RedundancyStrategy)
    (hreq : 1 ≤ rs.RequiredCount) (hstripe : 0 ≤ rs.StripeSize) (htot : 0 ≤ rs.TotalCount) :
    (∀ maxSize : Int, maxSize < 0 → ∃ e, EncodeReader r rs maxSize = Outcome.error e) ∧
    (∀ maxSize : Int, 0 ≤ maxSize → ∃ readers er,
      EncodeReader r rs maxSize = Outcome.ok (readers, er) ∧
      (readers.length : Int) = rs.TotalCount ∧
      (er.pieceBuf.lanes.length : Int) = rs.TotalCount ∧
      ∀ i : Nat, (i : Int) < rs.TotalCount →
        readers[i]? = some { lane := i } ∧
        (er.pieceBuf.Pipe i).map Prod.fst = some { lane := i }) := by
  constructor
  · intro maxSize hneg
    exact ⟨Error.New "negative max size", by
      simp only [EncodeReader, checkMaxSize, hneg, if_true]⟩
  · intro maxSize hmax
    refine ⟨_, _, EncodeReader_ok r rs maxSize hmax (by omega) hstripe htot, ?_, ?_, ?_⟩
    · simp only [List.length_map, List.length_range]
      omega
    · simp only [NewMultiPipeMemory_length]
      omega
    · intro i hi
      have hin : i < rs.TotalCount.toNat := by omega
      constructor
      · rw [List.getElem?_map, List.getElem?_range hin]
        rfl
      · rw [MultiPipe.Pipe_of_lt _ (i : Int) (by omega) (by
          rw [NewMultiPipeMemory_length]
          omega)]
        rfl

theorem EncodeReader_readers_witness :
    (∃ e, EncodeReader { data := abcdefgh, term := Error.EOF } toyStrategy (-1) =
      Outcome.error e) ∧
    (∃ readers er, EncodeReader { data := abcdefgh, term := Error.EOF } toyStrategy 0 =
      Outcome.ok (readers, er) ∧
      (readers.length : Int) = 4 ∧
      (er.pieceBuf.lanes.length : Int) = 4 ∧
      ∀ i : Nat, (i : Int) < 4 →
        readers[i]? = some { lane := i } ∧
        (er.pieceBuf.Pipe i).map Prod.fst = some { lane := i }) :=
  ⟨(EncodeReader_readers { data := abcdefgh, term := Error.EOF } toyStrategy (by decide)
      (by decide) (by decide)).1 (-1) (by decide),
   (EncodeReader_readers { data := abcdefgh, term := Error.EOF } toyStrategy (by decide)
      (by decide) (by decide)).2 0 (by decide)⟩

/-- C9: for a positive stripe size, `NewEncodedRanger` returns an error exactly when the size
of the source is not a multiple of the stripe size or `maxSize` is negative; otherwise it
returns the `EncodedRanger` that holds the given source, strategy and `maxSize`. -/
theorem NewEncodedRanger_spec (rr : Ranger) (rs : RedundancyStrategy) (maxSize : Int)
    (hstripe : 0 < rs.StripeSize) :
    ((∃ e, NewEncodedRanger rr rs maxSize = Outcome.error e) ↔
      (¬ rs.StripeSize ∣ rr.Size ∨ maxSize < 0)) ∧
    ((rs.StripeSize ∣ rr.Size ∧ 0 ≤ maxSize) →
      NewEncodedRanger rr rs maxSize = Outcome.ok { rr := rr, rs := rs, maxSize := maxSize }) := by
  have h0 : rs.StripeSize ≠ 0 := by omega
  by_cases hd : rs.StripeSize ∣ rr.Size
  · have hm : rr.Size.tmod rs.StripeSize = 0 := Int.tmod_eq_zero_of_dvd hd
    by_cases hmax : maxSize < 0
    · refine ⟨⟨fun _ => Or.inr hmax, fun _ => ⟨Error.New "negative max size", ?_⟩⟩,
        fun h => absurd hmax (by omega)⟩
      simp only [NewEncodedRanger, h0, if_false, hm, ne_eq, not_true_eq_false, checkMaxSize,
        hmax, if_true]
    · have hok : NewEncodedRanger rr rs maxSize =
          Outcome.ok { rr := rr, rs := rs, maxSize := maxSize } := by
        simp only [NewEncodedRanger, h0, if_false, hm, ne_eq, not_true_eq_false, checkMaxSize,
          hmax]
      refine ⟨⟨fun h => ?_, fun h => ?_⟩, fun _ => hok⟩
      · obtain ⟨e, he⟩ := h
        rw [hok] at he
        cases he
      · rcases h with h | h
        · exact absurd hd h
        · exact absurd h hmax
  · have hm : rr.Size.tmod rs.StripeSize ≠ 0 := fun h => hd (Int.dvd_of_tmod_eq_zero h)
    refine ⟨⟨fun _ => Or.inl hd, fun _ => ⟨Error.New ("invalid erasure encoder and range reader combo. " ++
      "range reader size must be a multiple of erasure encoder block size"), ?_⟩⟩,
      fun h => absurd h.1 hd⟩
    simp only [NewEncodedRanger, h0, if_false, hm, ne_eq, not_false_eq_true, if_true]

theorem NewEncodedRanger_spec_witness :
    NewEncodedRanger { data := abcdefgh } toyStrategy 8 = Outcome.ok toyRanger :=
  (NewEncodedRanger_spec { data := abcdefgh } toyStrategy 8 (by decide)).2
    ⟨⟨2, by decide⟩, by decide⟩

/-- C10: for a scheme with `1 ≤ RequiredCount ≤ TotalCount`, a strategy returned without error
by `NewRedundancyStrategy` has `RequiredCount ≤ RepairThreshold ≤ OptimalThreshold ≤
TotalCount`, and its embedded scheme, hence each scheme accessor, is the supplied one. -/
theorem NewRedundancyStrategy_invariant (es : ErasureScheme) (r o : Int)
    (rs : RedundancyStrategy)
    (hreq : 1 ≤ es.RequiredCount) (htot : es.RequiredCount ≤ es.TotalCount)
    (hok : NewRedundancyStrategy es r o = Outcome.ok rs) :
    es.RequiredCount ≤ rs.RepairThreshold ∧
    rs.RepairThreshold ≤ rs.OptimalThreshold ∧
    rs.OptimalThreshold ≤ es.TotalCount ∧
    rs.toErasureScheme = es ∧
    rs.StripeSize = es.StripeSize ∧
    rs.ErasureShareSize = es.ErasureShareSize ∧
    rs.RequiredCount = es.RequiredCount ∧
    rs.TotalCount = es.TotalCount := by
  rcases NewRedundancyStrategy_cases es r o _ _ rfl rfl with ⟨hc, h⟩ | ⟨_, e, h⟩
  · rw [h] at hok
    simp only [Outcome.ok.injEq] at hok
    subst hok
    refine ⟨?_, ?_, ?_, rfl, rfl, rfl, rfl, rfl⟩ <;>
      simp only [RedundancyStrategy.RepairThreshold, RedundancyStrategy.OptimalThreshold] <;>
      split_ifs at hc ⊢ <;> omega
  · rw [h] at hok
    cases hok

theorem NewRedundancyStrategy_invariant_witness :
    toyScheme.RequiredCount ≤ toyStrategy.RepairThreshold ∧
    toyStrategy.RepairThreshold ≤ toyStrategy.OptimalThreshold ∧
    toyStrategy.OptimalThreshold ≤ toyScheme.TotalCount ∧
    toyStrategy.toErasureScheme = toyScheme ∧
    toyStrategy.StripeSize = toyScheme.StripeSize ∧
    toyStrategy.ErasureShareSize = toyScheme.ErasureShareSize ∧
    toyStrategy.RequiredCount = toyScheme.RequiredCount ∧
    toyStrategy.TotalCount = toyScheme.TotalCount :=
  NewRedundancyStrategy_invariant toyScheme 0 0 toyStrategy (by decide) (by decide) rfl

/-- C11: a zero threshold is treated as `TotalCount`: for every scheme, `NewRedundancyStrategy`
returns for `(0, o)` what it returns for `(TotalCount, o)` and for `(r, 0)` what it returns
for `(r, TotalCount)`; every strategy returned for `(0, 0)` has both thresholds equal to
`TotalCount`, and one is returned when `RequiredCount ≤ TotalCount` and `0 ≤ TotalCount`. -/
theorem NewRedundancyStrategy_zero_is_total (es : ErasureScheme) :
    (∀ o : Int, NewRedundancyStrategy es 0 o = NewRedundancyStrategy es es.TotalCount o) ∧
    (∀ r : Int, NewRedundancyStrategy es r 0 = NewRedundancyStrategy es r es.TotalCount) ∧
    (∀ rs, NewRedundancyStrategy es 0 0 = Outcome.ok rs →
      rs.RepairThreshold = es.TotalCount ∧ rs.OptimalThreshold = es.TotalCount) ∧
    (es.RequiredCount ≤ es.TotalCount → 0 ≤ es.TotalCount →
      ∃ rs, NewRedundancyStrategy es 0 0 = Outcome.ok rs ∧
        rs.RepairThreshold = es.TotalCount ∧ rs.OptimalThreshold = es.TotalCount) := by
  have hcases := NewRedundancyStrategy_cases es 0 0 _ _ rfl rfl
  simp only [if_true] at hcases
  refine ⟨fun o => ?_, fun r => ?_, fun rs hrs => ?_, fun h1 h2 => ?_⟩
  · simp only [NewRedundancyStrategy, if_true, ite_self]
  · simp only [NewRedundancyStrategy, if_true, ite_self]
  · rcases hcases with ⟨_, h⟩ | ⟨_, e, h⟩
    · rw [h] at hrs
      simp only [Outcome.ok.injEq] at hrs
      subst hrs
      exact ⟨rfl, rfl⟩
    · rw [h] at hrs
      cases hrs
  · rcases hcases with ⟨_, h⟩ | ⟨hc, _⟩
    · exact ⟨_, h, rfl, rfl⟩
    · exfalso
      apply hc
      omega

theorem NewRedundancyStrategy_zero_is_total_witness :
    ∃ rs, NewRedundancyStrategy toyScheme 0 0 = Outcome.ok rs ∧
      rs.RepairThreshold = toyScheme.TotalCount ∧ rs.OptimalThreshold = toyScheme.TotalCount :=
  (NewRedundancyStrategy_zero_is_total toyScheme).2.2.2 (by decide) (by decide)

/-- C12: with lane 0 closed before the run, the write of the share of lane 0 of the first
stripe returns an error, yet the callbacks of the same `Encode` leave `writeErr` nil; the
producer goes on to read and encode the second stripe, leaves the loop with `io.EOF` after a
third read and closes every lane with no error. With lane 3 closed instead, whose write is
the last of the stripe, the producer leaves the loop after the first stripe and closes every
lane with the write error. -/
theorem fillBuffer_write_error_lost :
    ((PipeWriter.Write { lane := 0 } (toyProducerClosed 0 abcdefgh).pieceBuf [65, 66]).map
      Prod.snd = some (some Error.ErrClosedPipe)) ∧
    ((emit (toyProducerClosed 0 abcdefgh).pieceBuf none
      (toyStrategy.Encode [65, 66, 67, 68]).1).map Prod.snd = some none) ∧
    (((toyProducerClosed 0 abcdefgh).fillBuffer 9 background).map Run.observed = some
      (3, [[65, 66, 67, 68], [69, 70, 71, 72]], Error.EOF,
        { lanes := [{ buf := [], closes := [none, none] },
                    { buf := [67, 68, 71, 72], closes := [none] },
                    { buf := [2, 6, 2, 14], closes := [none] },
                    { buf := [5, 1, 13, 1], closes := [none] }],
          capacity := 4 },
        { data := [], term := Error.EOF })) ∧
    (((toyProducerClosed 3 abcdefgh).fillBuffer 9 background).map Run.observed = some
      (1, [[65, 66, 67, 68]], Error.ErrClosedPipe,
        { lanes := [{ buf := [65, 66], closes := [some Error.ErrClosedPipe] },
                    { buf := [67, 68], closes := [some Error.ErrClosedPipe] },
                    { buf := [2, 6], closes := [some Error.ErrClosedPipe] },
                    { buf := [], closes := [none, some Error.ErrClosedPipe] }],
          capacity := 4 },
        { data := [69, 70, 71, 72], term := Error.EOF })) := by
  refine ⟨by decide, by decide, by decide, by decide⟩

/-- C13: for a positive share size and every `offset ≥ 0`, `length ≥ 0`, the method `Range`
asks the source for the range that starts at `first_block * StripeSize` and has length
`block_count * StripeSize`, with `first_block = offset / share_size`,
`last_block = (offset + length - 1) / share_size` and
`block_count = last_block - first_block + 1` when `length > 0` and `0` otherwise. When
the source refuses this request, `Range` returns the error of the source. When `Range`
returns readers, the producer was given exactly these bytes of the source, and the reader of
each lane delivers the lane without its first `offset - first_block * share_size` bytes (a
count that is not negative and that the lane holds), cut after `length` bytes: it delivers at
most `length` bytes and ends with end-of-stream when the cut applies. -/
theorem Range_request (er : EncodedRanger) (fuel : Nat) (ctx : Context) (offset length : Int)
    (hshare : 0 < er.rs.ErasureShareSize) (hoff : 0 ≤ offset) (hlen : 0 ≤ length) :
    er.Range fuel ctx offset length =
      er.encodeRange fuel ctx
        (er.rr.Range (offset / er.rs.ErasureShareSize * er.rs.StripeSize)
          ((if 0 < length then
              (offset + length - 1) / er.rs.ErasureShareSize - offset / er.rs.ErasureShareSize + 1
            else 0) * er.rs.StripeSize))
        (offset - offset / er.rs.ErasureShareSize * er.rs.ErasureShareSize) length ∧
    0 ≤ offset - offset / er.rs.ErasureShareSize * er.rs.ErasureShareSize ∧
    (∀ e,
      er.rr.Range (offset / er.rs.ErasureShareSize * er.rs.StripeSize)
        ((if 0 < length then
            (offset + length - 1) / er.rs.ErasureShareSize - offset / er.rs.ErasureShareSize + 1
          else 0) * er.rs.StripeSize) = Outcome.error e →
      er.Range fuel ctx offset length = Outcome.error e) ∧
    ∀ streams, er.Range fuel ctx offset length = Outcome.ok streams →
      ∃ readers enc run,
        EncodeReader
          { data := (er.rr.data.drop
                (offset / er.rs.ErasureShareSize * er.rs.StripeSize).toNat).take
              ((if 0 < length then
                  (offset + length - 1) / er.rs.ErasureShareSize -
                    offset / er.rs.ErasureShareSize + 1
                else 0) * er.rs.StripeSize).toNat,
            term := Error.EOF }
          er.rs er.maxSize = Outcome.ok (readers, enc) ∧
        enc.fillBuffer fuel ctx = some run ∧
        streams.length = readers.length ∧
        ∀ (i : Nat) (rd : PipeReader), readers[i]? = some rd →
          ∃ s, rd.stream run.er.pieceBuf = some s ∧
            (offset - offset / er.rs.ErasureShareSize * er.rs.ErasureShareSize).toNat ≤
              s.bytes.length ∧
            streams[i]? = some
              { bytes := (s.bytes.drop
                    (offset - offset / er.rs.ErasureShareSize *
                      er.rs.ErasureShareSize).toNat).take length.toNat,
                term :=
                  if (s.bytes.length : Int) -
                      (offset - offset / er.rs.ErasureShareSize * er.rs.ErasureShareSize) <
                      length
                  then s.term else none } ∧
            (((s.bytes.drop
                (offset - offset / er.rs.ErasureShareSize *
                  er.rs.ErasureShareSize).toNat).take length.toNat).length : Int) ≤ length := by
  obtain ⟨off, rfl⟩ := Int.eq_ofNat_of_zero_le hoff
  obtain ⟨len, rfl⟩ := Int.eq_ofNat_of_zero_le hlen
  obtain ⟨cN, hc⟩ := Int.eq_ofNat_of_zero_le (Int.le_of_lt hshare)
  have hcpos : 0 < cN := by omega
  have hcalc := CalcEncompassingBlocks_natCast off len cN hcpos
  have hfb : ((off : Int) / (cN : Int)) = ((off / cN : Nat) : Int) := (Int.natCast_div _ _).symm
  have hbc : (if (0 : Int) < (len : Int) then
      ((off : Int) + (len : Int) - 1) / (cN : Int) - (off : Int) / (cN : Int) + 1 else 0) =
      (((if 0 < len then (off + len - 1) / cN - off / cN + 1 else 0 : Nat)) : Int) := by
    by_cases hl : 0 < len
    · have hl1 : (0 : Int) < (len : Int) := by omega
      have hmono : off / cN ≤ (off + len - 1) / cN := Nat.div_le_div_right (by omega)
      have hcast : ((off : Int) + (len : Int) - 1) = (((off + len - 1 : Nat)) : Int) := by omega
      simp only [hl, hl1, if_true]
      rw [hcast, ← Int.natCast_div, ← Int.natCast_div]
      omega
    · have hl1 : ¬ (0 : Int) < (len : Int) := by omega
      simp only [hl, hl1, if_false]
      rfl
  have hskip : (0 : Int) ≤ (off : Int) - ((off / cN : Nat) : Int) * (cN : Int) := by
    have := Nat.div_mul_le_self off cN
    have h2 : ((off / cN * cN : Nat) : Int) ≤ (off : Int) := Int.ofNat_le.2 this
    push_cast at h2
    omega
  have heq : er.Range fuel ctx (off : Int) (len : Int) =
      er.encodeRange fuel ctx
        (er.rr.Range (((off / cN : Nat) : Int) * er.rs.StripeSize)
          ((((if 0 < len then (off + len - 1) / cN - off / cN + 1 else 0 : Nat)) : Int) *
            er.rs.StripeSize))
        ((off : Int) - ((off / cN : Nat) : Int) * (cN : Int)) (len : Int) := by
    rw [EncodedRanger.Range, hc, hcalc]
    rfl
  rw [hc, hbc, hfb]
  clear hcalc hbc
  generalize (if 0 < len then (off + len - 1) / cN - off / cN + 1 else 0 : Nat) = bc at heq ⊢
  refine ⟨heq, hskip, fun e he => by rw [heq, he]; rfl, fun streams hs => ?_⟩
  rw [heq] at hs
  unfold EncodedRanger.encodeRange at hs
  cases hr : er.rr.Range (((off / cN : Nat) : Int) * er.rs.StripeSize)
      ((bc : Int) * er.rs.StripeSize) with
  | error e => rw [hr] at hs; exact Outcome.noConfusion hs
  | panicked => rw [hr] at hs; exact Outcome.noConfusion hs
  | ok r =>
    rw [hr] at hs
    simp only at hs
    have hrdata : r =
        { data := List.take ((bc : Int) * er.rs.StripeSize).toNat
            (List.drop (((off / cN : Nat) : Int) * er.rs.StripeSize).toNat er.rr.data),
          term := Error.EOF } := by
      unfold Ranger.Range at hr
      split_ifs at hr
      simp only [Outcome.ok.injEq] at hr
      exact hr.symm
    cases hE : EncodeReader r er.rs er.maxSize with
    | error e => rw [hE] at hs; exact Outcome.noConfusion hs
    | panicked => rw [hE] at hs; exact Outcome.noConfusion hs
    | ok x =>
      obtain ⟨readers, enc⟩ := x
      rw [hE] at hs
      simp only at hs
      cases hf : enc.fillBuffer fuel ctx with
      | none => rw [hf] at hs; exact Outcome.noConfusion hs
      | some run =>
        rw [hf] at hs
        simp only at hs
        obtain ⟨h1, h2⟩ := trimReaders_ok _ _ _ hskip readers streams hs
        rw [hrdata] at hE
        refine ⟨readers, enc, run, hE, hf, h1, fun i rd hrd => ?_⟩
        obtain ⟨s, hs1, hs2, hs3⟩ := h2 i rd hrd
        refine ⟨s, hs1, hs2, ?_, ?_⟩
        · rw [hs3, LimitReader_eq]
          simp only [List.length_drop, Int.toNat_natCast]
          have hsub : ((s.bytes.length -
              ((off : Int) - ((off / cN : Nat) : Int) * (cN : Int)).toNat : Nat) : Int) =
              (s.bytes.length : Int) - ((off : Int) - ((off / cN : Nat) : Int) * (cN : Int)) := by
            omega
          rw [hsub]
        · simp only [List.length_take, Int.toNat_natCast]
          omega

theorem Range_request_witness :
    toyRanger.Range 9 background 1 2 =
      toyRanger.encodeRange 9 background (toyRanger.rr.Range 0 8) 1 2 ∧
    ∃ readers enc run,
      EncodeReader { data := (abcdefgh.drop 0).take 8, term := Error.EOF } toyStrategy 8 =
        Outcome.ok (readers, enc) ∧
      enc.fillBuffer 9 background = some run ∧
      4 = readers.length ∧
      ∀ (i : Nat) (rd : PipeReader), readers[i]? = some rd →
        ∃ s, rd.stream run.er.pieceBuf = some s ∧ 1 ≤ s.bytes.length ∧
          [({ bytes := [66, 69], term := none } : Stream),
            { bytes := [68, 71], term := none },
            { bytes := [6, 2], term := none },
            { bytes := [1, 13], term := none }][i]? =
            some { bytes := (s.bytes.drop 1).take 2,
                   term := if (s.bytes.length : Int) - 1 < 2 then s.term else none } ∧
          ((((s.bytes.drop 1).take 2).length : Nat) : Int) ≤ 2 :=
  ⟨(Range_request toyRanger 9 background 1 2 (by decide) (by decide) (by decide)).1,
   (Range_request toyRanger 9 background 1 2 (by decide) (by decide) (by decide)).2.2.2
     [{ bytes := [66, 69], term := none }, { bytes := [68, 71], term := none },
      { bytes := [6, 2], term := none }, { bytes := [1, 13], term := none }]
     (by decide)⟩

/-- C14: for a ranged encoder built by `NewEncodedRanger` with positive stripe and share sizes
and every range with `0 ≤ offset`, `0 ≤ length` and `offset + length ≤ OutputSize()`, the
blocks computed for the range give a request that lies inside the source:
`0 ≤ first_block * StripeSize` and
`first_block * StripeSize + block_count * StripeSize ≤ Size()`, so the source returns a
reader for it; and the discard count satisfies
`0 ≤ offset - first_block * share_size < share_size`. -/
theorem Range_request_in_bounds (rr : Ranger) (rs : RedundancyStrategy) (maxSize : Int)
    (er : EncodedRanger) (offset length : Int)
    (hnew : NewEncodedRanger rr rs maxSize = Outcome.ok er)
    (hstripe : 0 < rs.StripeSize) (hshare : 0 < rs.ErasureShareSize)
    (hoff : 0 ≤ offset) (hlen : 0 ≤ length) (hend : offset + length ≤ er.OutputSize) :
    ∃ firstBlock blockCount,
      CalcEncompassingBlocks offset length er.rs.ErasureShareSize =
        some (firstBlock, blockCount) ∧
      0 ≤ firstBlock * er.rs.StripeSize ∧
      0 ≤ blockCount * er.rs.StripeSize ∧
      firstBlock * er.rs.StripeSize + blockCount * er.rs.StripeSize ≤ er.rr.Size ∧
      0 ≤ offset - firstBlock * er.rs.ErasureShareSize ∧
      offset - firstBlock * er.rs.ErasureShareSize < er.rs.ErasureShareSize ∧
      ∃ r, er.rr.Range (firstBlock * er.rs.StripeSize) (blockCount * er.rs.StripeSize) =
        Outcome.ok r := by
  obtain ⟨h0, hmod, hmax, her⟩ := NewEncodedRanger_inv rr rs maxSize er hnew
  subst her
  obtain ⟨off, rfl⟩ := Int.eq_ofNat_of_zero_le hoff
  obtain ⟨len, rfl⟩ := Int.eq_ofNat_of_zero_le hlen
  obtain ⟨nN, hn⟩ := Int.eq_ofNat_of_zero_le (Int.le_of_lt hstripe)
  obtain ⟨cN, hc⟩ := Int.eq_ofNat_of_zero_le (Int.le_of_lt hshare)
  have hnpos : 0 < nN := by omega
  have hcpos : 0 < cN := by omega
  have hdvd : nN ∣ rr.data.length := by
    have := Int.dvd_of_tmod_eq_zero hmod
    rw [hn, Ranger.Size] at this
    exact Int.natCast_dvd_natCast.1 this
  have hsize : rr.data.length / nN * nN = rr.data.length := Nat.div_mul_cancel hdvd
  have hout : ({ rr := rr, rs := rs, maxSize := maxSize } : EncodedRanger).OutputSize =
      ((rr.data.length / nN * cN : Nat) : Int) := by
    simp only [EncodedRanger.OutputSize, Ranger.Size, hn, hc]
    rw [Int.tdiv_eq_ediv (Int.ofNat_nonneg _) (Int.ofNat_nonneg _), ← Int.natCast_div,
      ← Nat.cast_mul]
  rw [hout] at hend
  have hend1 : off + len ≤ rr.data.length / nN * cN := by exact_mod_cast hend
  obtain ⟨hfb, hskip, hK⟩ := blocks_bounds off len cN (rr.data.length / nN) hcpos hend1
  generalize hbc : (if 0 < len then (off + len - 1) / cN - off / cN + 1 else 0) = bc at hK
  have hbound : off / cN * nN + bc * nN ≤ rr.data.length := by
    rw [← hsize, ← Nat.add_mul]
    exact Nat.mul_le_mul_right nN hK
  have hcalc : CalcEncompassingBlocks (off : Int) (len : Int) (cN : Int) =
      some (((off / cN : Nat) : Int), (bc : Int)) := by
    rw [CalcEncompassingBlocks_natCast off len cN hcpos, hbc]
  have h1 : (0 : Int) ≤ ((off / cN * nN : Nat) : Int) := Int.ofNat_nonneg _
  have h2 : (0 : Int) ≤ ((bc * nN : Nat) : Int) := Int.ofNat_nonneg _
  have h3 : ((off / cN * nN + bc * nN : Nat) : Int) ≤ ((rr.data.length : Nat) : Int) :=
    Int.ofNat_le.2 hbound
  have h4 : ((off / cN * cN : Nat) : Int) ≤ (off : Int) := Int.ofNat_le.2 hfb
  have h5 : ((off - off / cN * cN : Nat) : Int) < (cN : Int) := Int.ofNat_lt.2 hskip
  rw [Nat.cast_sub hfb] at h5
  push_cast at h1 h2 h3 h4 h5
  refine ⟨((off / cN : Nat) : Int), (bc : Int), ?_, ?_, ?_, ?_, ?_, ?_, ?_⟩
  · show CalcEncompassingBlocks (off : Int) (len : Int) rs.ErasureShareSize = _
    rw [hc, hcalc]
  · show (0 : Int) ≤ ((off / cN : Nat) : Int) * rs.StripeSize
    rw [hn]
    push_cast
    exact h1
  · show (0 : Int) ≤ (bc : Int) * rs.StripeSize
    rw [hn]
    exact h2
  · show ((off / cN : Nat) : Int) * rs.StripeSize + (bc : Int) * rs.StripeSize ≤ rr.Size
    rw [hn, Ranger.Size]
    push_cast
    exact h3
  · show (0 : Int) ≤ (off : Int) - ((off / cN : Nat) : Int) * rs.ErasureShareSize
    rw [hc]
    push_cast
    omega
  · show (off : Int) - ((off / cN : Nat) : Int) * rs.ErasureShareSize < rs.ErasureShareSize
    rw [hc]
    push_cast
    omega
  · show ∃ r, rr.Range (((off / cN : Nat) : Int) * rs.StripeSize) ((bc : Int) * rs.StripeSize) =
      Outcome.ok r
    have hb : ¬ ((((off / cN : Nat) : Int) * (nN : Int) < 0) ∨ ((bc : Int) * (nN : Int) < 0) ∨
        (((off / cN : Nat) : Int) * (nN : Int) + (bc : Int) * (nN : Int) >
          ((rr.data.length : Nat) : Int))) := by
      push_cast
      omega
    have hR : rr.Range (((off / cN : Nat) : Int) * rs.StripeSize) ((bc : Int) * rs.StripeSize) =
        Outcome.ok
          { data := (rr.data.drop (((off / cN : Nat) : Int) * (nN : Int)).toNat).take
              ((bc : Int) * (nN : Int)).toNat,
            term := Error.EOF } := by
      simp only [Ranger.Range, Ranger.Size, hn, hb, if_false]
    exact ⟨_, hR⟩

theorem Range_request_in_bounds_witness :
    ∃ firstBlock blockCount,
      CalcEncompassingBlocks 1 3 toyRanger.rs.ErasureShareSize =
        some (firstBlock, blockCount) ∧
      0 ≤ firstBlock * toyRanger.rs.StripeSize ∧
      0 ≤ blockCount * toyRanger.rs.StripeSize ∧
      firstBlock * toyRanger.rs.StripeSize + blockCount * toyRanger.rs.StripeSize ≤
        toyRanger.rr.Size ∧
      0 ≤ 1 - firstBlock * toyRanger.rs.ErasureShareSize ∧
      1 - firstBlock * toyRanger.rs.ErasureShareSize < toyRanger.rs.ErasureShareSize ∧
      ∃ r, toyRanger.rr.Range (firstBlock * toyRanger.rs.StripeSize)
        (blockCount * toyRanger.rs.StripeSize) = Outcome.ok r :=
  Range_request_in_bounds { data := abcdefgh } toyStrategy 8 toyRanger 1 3 rfl (by decide)
    (by decide) (by decide) (by decide) (by decide)

end eestream
